import Mathlib

/-!
# Verification of the gossie mapping engine

Shallow embedding of `mapping.go` from HailoOSS/gossie: the sparse and
compact mapping strategies between tagged records and wide-column rows,
the composite column-name codec, and the streaming decode protocol.

Modelling conventions:
* byte strings are `List Nat` (each entry standing for one byte);
* the external primitive type codec (`Marshal` / `Unmarshal`, declared
  out of scope and assumed correct by the spec) is modelled as the
  identity on already-marshalled byte strings, so record field values
  are stored directly as bytes;
* a record instance is an association list from field name (the
  store-facing column name, itself a byte string) to field value; the
  ordered field list of the inspected struct is the list order;
* the `RowProvider` interface is modelled by a concrete list-backed
  provider: a row key, an ordered column list, a cursor position, and
  the exhaustion signal the provider emits once the columns run out.
-/

abbrev Bytes := List Nat

deriving instance DecidableEq for Except

/-- End-of-component marker used for all packed components
(`eocEquals` in the source). -/
def eocEquals : Nat := 0

/-- Modelled from the spec: `packComposite` (the composite codec lives in
a source file of this repository that is not part of the inspected
sources). One component is encoded as a 2-byte big-endian length prefix
(the length taken modulo 2^16, as a 2-byte field forces), the raw
component bytes, then a 1-byte end-of-component marker. -/
def packComposite (component : Bytes) (eoc : Nat) : Bytes :=
  (component.length / 256 % 256) :: (component.length % 256) :: (component ++ [eoc])

/-- Decoding loop with an explicit fuel bound: every step consumes at
least the 2-byte header, so fuel equal to the input length is always
enough; the bound only makes the length-decreasing loop structurally
recursive. -/
def unpackCompositeFuel : Nat → Bytes → List Bytes
  | 0, _ => []
  | _, [] => []
  | _, [_] => []
  | fuel + 1, b0 :: b1 :: rest =>
    rest.take (b0 * 256 + b1) ::
      unpackCompositeFuel fuel (rest.drop (b0 * 256 + b1 + 1))

/-- Modelled from the spec: composite decode (inverse direction of the
codec contract). Repeatedly read a 2-byte big-endian length `l`, take
the next `l` bytes as one component, and skip the 1-byte marker. A
trailing fragment shorter than a length header ends decoding (the Go
implementation never sees one on well-formed input). -/
def unpackComposite (b : Bytes) : List Bytes :=
  unpackCompositeFuel b.length b

theorem unpackCompositeFuel_irrel (fuel1 : Nat) :
    ∀ (fuel2 : Nat) (xs : Bytes), xs.length ≤ fuel1 → xs.length ≤ fuel2 →
      unpackCompositeFuel fuel1 xs = unpackCompositeFuel fuel2 xs := by
  induction fuel1 with
  | zero =>
    intro fuel2 xs h1 _
    have hx : xs = [] := List.length_eq_zero.mp (Nat.le_zero.mp h1)
    subst hx
    cases fuel2 <;> rfl
  | succ f1 ih =>
    intro fuel2 xs h1 h2
    match xs, fuel2 with
    | [], f2 => cases f2 <;> rfl
    | [x], f2 =>
      cases f2 with
      | zero => simp at h2
      | succ => rfl
    | b0 :: b1 :: rest, 0 => simp at h2
    | b0 :: b1 :: rest, f2 + 1 =>
      simp only [unpackCompositeFuel]
      congr 1
      have hd : (rest.drop (b0 * 256 + b1 + 1)).length ≤ rest.length := by
        simp [List.length_drop]
      simp only [List.length_cons] at h1 h2
      exact ih f2 _ (le_trans hd (by omega)) (le_trans hd (by omega))

theorem unpackComposite_nil : unpackComposite [] = [] := rfl

theorem unpackComposite_single (x : Nat) : unpackComposite [x] = [] := rfl

/-- The step equation of the decoding loop. -/
theorem unpackComposite_cons (b0 b1 : Nat) (rest : Bytes) :
    unpackComposite (b0 :: b1 :: rest) =
      rest.take (b0 * 256 + b1) ::
        unpackComposite (rest.drop (b0 * 256 + b1 + 1)) := by
  show unpackCompositeFuel (rest.length + 1 + 1) (b0 :: b1 :: rest) = _
  simp only [unpackCompositeFuel]
  congr 1
  apply unpackCompositeFuel_irrel
  · rw [List.length_drop]
    omega
  · exact le_refl _

/-- Concatenated encoding of an ordered component sequence: the result
of `sparseMapping.startMap`'s loop of successive
`append(composite, packComposite(b, eocEquals)...)` calls. -/
def packComponents (cs : List Bytes) : Bytes :=
  (cs.map (fun c => packComposite c eocEquals)).flatten

/-- A column of a row: a binary name and a binary value. `Ttl` and
`Timestamp` carry write-time metadata ignored by every claim and are
omitted. -/
structure Column where
  Name : Bytes
  Value : Bytes
deriving DecidableEq

/-- A row: a binary key and an ordered column sequence. -/
structure Row where
  Key : Bytes
  Columns : List Column
deriving DecidableEq

/-- A record instance: ordered association list from field name to
(already-marshalled) field value. -/
abbrev Rec := List (Bytes × Bytes)

/-- Field lookup by name (`si.goFields` / `si.cassandraFields`). -/
def lookupField : Rec → Bytes → Option Bytes
  | [], _ => none
  | f :: rest, n => if f.1 = n then some f.2 else lookupField rest n

/-- In-place update of one field's value (reflective `unmarshalValue`
into the destination struct); a name that is not a declared field leaves
the record unchanged. -/
def updateField (v : Rec) (n : Bytes) (b : Bytes) : Rec :=
  v.map (fun f => if f.1 = n then (f.1, b) else f)

/-- The declared field names, in declared order. -/
def keysOf (v : Rec) : List Bytes :=
  v.map Prod.fst

-- Basic association-list lemmas --------------------------------------------

theorem keysOf_updateField (v : Rec) (n b : Bytes) :
    keysOf (updateField v n b) = keysOf v := by
  induction v with
  | nil => rfl
  | cons f rest ih =>
    simp only [updateField, keysOf, List.map_cons] at *
    by_cases h : f.1 = n
    · simp [h, ih]
    · simp [h, ih]

theorem lookupField_isSome_iff (v : Rec) (n : Bytes) :
    (lookupField v n).isSome = true ↔ n ∈ keysOf v := by
  induction v with
  | nil => simp [lookupField, keysOf]
  | cons f rest ih =>
    by_cases h : f.1 = n
    · simp [lookupField, keysOf, h]
    · simp [lookupField, keysOf, h, ih]
      intro he
      exact absurd he.symm h

theorem lookupField_updateField_same (v : Rec) (n b : Bytes) (h : n ∈ keysOf v) :
    lookupField (updateField v n b) n = some b := by
  induction v with
  | nil => simp [keysOf] at h
  | cons f rest ih =>
    by_cases hf : f.1 = n
    · simp [updateField, lookupField, hf]
    · have h' : n ∈ keysOf rest := by
        simp only [keysOf, List.map_cons, List.mem_cons] at h
        rcases h with h | h
        · exact absurd h.symm hf
        · exact h
      have hrest := ih h'
      simp only [updateField] at hrest ⊢
      simp [lookupField, hf, hrest]

theorem lookupField_updateField_other (v : Rec) (n m b : Bytes) (h : m ≠ n) :
    lookupField (updateField v n b) m = lookupField v m := by
  have hnm : ¬n = m := fun he => h he.symm
  induction v with
  | nil => rfl
  | cons f rest ih =>
    have ihr := ih
    simp only [updateField] at ihr ⊢
    by_cases hf : f.1 = n
    · have hfm : ¬f.1 = m := by
        rw [hf]
        exact hnm
      simp [lookupField, hf, hfm, hnm, ihr]
    · have hmn : ¬m = n := fun he => hnm he.symm
      by_cases hm : f.1 = m
      · simp [lookupField, hf, hm, hmn]
      · simp [lookupField, hf, hm, ihr]

/-- Two records with the same ordered field-name list, no duplicate
names, and pointwise equal lookups are equal. -/
theorem rec_eq_of_lookup_eq (v r : Rec) (hk : keysOf v = keysOf r)
    (hnd : (keysOf r).Nodup)
    (hl : ∀ n, n ∈ keysOf r → lookupField v n = lookupField r n) : v = r := by
  induction r generalizing v with
  | nil =>
    cases v with
    | nil => rfl
    | cons f rest => simp [keysOf] at hk
  | cons g rrest ih =>
    cases v with
    | nil => simp [keysOf] at hk
    | cons f vrest =>
      simp only [keysOf, List.map_cons, List.cons.injEq] at hk
      obtain ⟨hk1, hk2⟩ := hk
      simp only [keysOf, List.map_cons, List.nodup_cons] at hnd
      obtain ⟨hg, hndr⟩ := hnd
      have hval : f.2 = g.2 := by
        have hmem : g.1 ∈ keysOf (g :: rrest) := by
          simp [keysOf]
        have := hl g.1 hmem
        simp [lookupField, hk1] at this
        exact this
      have htail : vrest = rrest := by
        apply ih vrest hk2 hndr
        intro n hn
        have hne : ¬g.1 = n := by
          intro he
          rw [he] at hg
          exact hg hn
        have hmem : n ∈ keysOf (g :: rrest) := by
          simp only [keysOf, List.map_cons, List.mem_cons]
          exact Or.inr hn
        have := hl n hmem
        have hf1 : ¬f.1 = n := hk1 ▸ hne
        simpa [lookupField, hf1, hne] using this
      calc f :: vrest = (f.1, f.2) :: vrest := by rfl
      _ = (g.1, g.2) :: rrest := by rw [hk1, hval, htail]
      _ = g :: rrest := by rfl

-- Composite codec lemmas ---------------------------------------------------

theorem packComponents_nil : packComponents [] = [] := rfl

theorem packComponents_cons (c : Bytes) (cs : List Bytes) :
    packComponents (c :: cs) = packComposite c eocEquals ++ packComponents cs := by
  simp [packComponents]

theorem packComponents_append (cs ds : List Bytes) :
    packComponents (cs ++ ds) = packComponents cs ++ packComponents ds := by
  induction cs with
  | nil => simp [packComponents_nil]
  | cons c rest ih => simp [packComponents_cons, ih]

theorem unpackComposite_packComposite (c : Bytes) (e : Nat) (b : Bytes)
    (h : c.length < 65536) :
    unpackComposite (packComposite c e ++ b) = c :: unpackComposite b := by
  have hlen : c.length / 256 % 256 * 256 + c.length % 256 = c.length := by
    omega
  have hshape : packComposite c e ++ b =
      (c.length / 256 % 256) :: (c.length % 256) :: ((c ++ [e]) ++ b) := by
    simp [packComposite]
  rw [hshape]
  rw [unpackComposite_cons]
  rw [hlen]
  congr 1
  · rw [List.append_assoc, List.take_append_of_le_length (by simp)]
    simp
  · have hdrop : ((c ++ [e]) ++ b).drop (c.length + 1) = b := by
      have : (c ++ [e]).length = c.length + 1 := by simp
      rw [← this, List.drop_left]
    rw [hdrop]

theorem unpackComposite_packComponents (cs : List Bytes)
    (h : ∀ c ∈ cs, c.length < 65536) :
    unpackComposite (packComponents cs) = cs := by
  induction cs with
  | nil => simp [packComponents_nil, unpackComposite_nil]
  | cons c rest ih =>
    rw [packComponents_cons, unpackComposite_packComposite c eocEquals _
      (h c (by simp))]
    rw [ih (fun x hx => h x (by simp [hx]))]

theorem packComposite_length (c : Bytes) (e : Nat) :
    (packComposite c e).length = c.length + 3 := by
  simp [packComposite]

theorem packComponents_length (cs : List Bytes) :
    (packComponents cs).length = (cs.map (fun c => c.length + 3)).sum := by
  induction cs with
  | nil => simp [packComponents_nil]
  | cons c rest ih =>
    rw [packComponents_cons]
    simp [packComposite_length, ih]

-- Mapping engine: data types ----------------------------------------------

/-- Exhaustion signal a `RowProvider` emits once its columns run out:
`Done` ("no more rows/columns available"), `EndBeforeLimit`, or
`EndAtLimit` (sentinel error values in the source). -/
inductive Signal where
  | done
  | endBeforeLimit
  | endAtLimit
deriving DecidableEq

/-- List-backed model of the `RowProvider` interface: `Key()` returns
`key`; `NextColumn()` returns `columns[pos]` and advances `pos`, or the
`endSignal` once `pos` passes the end; `Rewind()` moves `pos` back one. -/
structure RowProvider where
  key : Bytes
  columns : List Column
  endSignal : Signal
  pos : Nat
deriving DecidableEq

/-- Errors of `Map` (the modelled codec is total, so only the
field-not-found paths of the source remain reachable). -/
inductive MapErr where
  | keyFieldMissing
  | componentFieldMissing
deriving DecidableEq

/-- Errors and signals returned by `Unmap`: `done` models returning the
`Done` sentinel, the rest model the distinct `errors.New` messages. -/
inductive UnmapErr where
  | done
  | shapeMismatch
  | keyFieldMissing
  | componentFieldMissing
deriving DecidableEq

/-- The sparse mapping state: column-family name, key field name, and
ordered component field names (`componentsMap` of the source is
membership in `components`). -/
structure sparseMapping where
  cf : String
  key : Bytes
  components : List Bytes
deriving DecidableEq

-- sparseMapping: Map side ---------------------------------------------------

/-- The component-marshalling loop of `sparseMapping.startMap`: marshal
each declared component field of `source` in order and append its packed
encoding, failing if a component field is not a declared field. -/
def buildComposite (source : Rec) : List Bytes → Bytes → Except MapErr Bytes
  | [], acc => .ok acc
  | c :: rest, acc =>
    match lookupField source c with
    | some b => buildComposite source rest (acc ++ packComposite b eocEquals)
    | none => .error .componentFieldMissing

/-- `sparseMapping.startMap`: marshal the key field into `Row.Key` and
build the shared composite column-name prefix from the component
fields. -/
def sparseMapping.startMap (m : sparseMapping) (source : Rec) :
    Except MapErr (Row × Bytes) :=
  match lookupField source m.key with
  | none => .error .keyFieldMissing
  | some kb =>
    match buildComposite source m.components [] with
    | .error e => .error e
    | .ok composite => .ok ({ Key := kb, Columns := [] }, composite)

/-- Column-name construction in `sparseMapping.Map`: when a composite
exists, append the field name as one more packed component; otherwise
the bare field name is the column name. -/
def mkColumnName (composite : Bytes) (columnName : Bytes) : Bytes :=
  if composite.length > 0 then composite ++ packComposite columnName eocEquals
  else columnName

/-- `sparseMapping.Map`: one column per declared field other than the
key field and the component fields, in declared field order. -/
def sparseMapping.Map (m : sparseMapping) (source : Rec) : Except MapErr Row :=
  match m.startMap source with
  | .error e => .error e
  | .ok (row, composite) =>
    let cols := source.foldl (fun acc f =>
      if f.1 = m.key then acc
      else if f.1 ∈ m.components then acc
      else acc ++ [{ Name := mkColumnName composite f.1, Value := f.2 }]) []
    .ok { row with Columns := cols }

-- sparseMapping: Unmap side -------------------------------------------------

/-- The component sequence `sparseMapping.extractComponents` finds in a
column name: the unpacked composite when the mapping declares component
fields, else the whole name as a single component. -/
def sparseMapping.extractedComponents (m : sparseMapping) (column : Column) :
    List Bytes :=
  if m.components.length > 0 then unpackComposite column.Name
  else [column.Name]

/-- `sparseMapping.extractComponents`: fails with a shape-mismatch error
when the number of components found differs from the declared component
count plus the bias (1 for sparse, 0 for compact). -/
def sparseMapping.extractComponents (m : sparseMapping) (column : Column)
    (bias : Nat) : Except UnmapErr (List Bytes) :=
  let components := m.extractedComponents column
  if components.length ≠ m.components.length + bias then .error .shapeMismatch
  else .ok components

/-- Body of `sparseMapping.unmapComponents`: write each decoded
component value into its component field, failing on an undeclared
component field. The pairing mirrors the source's `components[i]`
indexing, which its callers guarantee to be in range. -/
def unmapComponentsGo (v : Rec) : List (Bytes × Bytes) → Except UnmapErr Rec
  | [] => .ok v
  | (c, b) :: rest =>
    if (lookupField v c).isSome then unmapComponentsGo (updateField v c b) rest
    else .error .componentFieldMissing

/-- `sparseMapping.unmapComponents`: unmarshal the decoded component
values (excluding any trailing extra component) into the record's
component fields. -/
def sparseMapping.unmapComponents (m : sparseMapping) (v : Rec)
    (components : List Bytes) : Except UnmapErr Rec :=
  unmapComponentsGo v (m.components.zip components)

/-- Byte-by-byte comparison loop `sparseMapping.isNewComponents`: true
when the new column's component sequence differs from the previous one
on the first `length - bias` components (or in total length). -/
def isNewComponents (prev next : List Bytes) (bias : Nat) : Bool :=
  if prev.length ≠ next.length then true
  else (List.range (prev.length - bias)).any
    (fun i => decide (prev.getD i [] ≠ next.getD i []))

/-- The streaming loop of `sparseMapping.Unmap`, recursing over the
columns the provider has not yet served. State: the record decoded so
far, the `compositeFieldsAreSet` flag, the current group's component
sequence, and the net number of columns consumed (a rewind does not
count). Exhaustion of the column list delivers the provider's end
signal, exactly as the source's `NextColumn` error branches. -/
def sparseMapping.unmapLoop (m : sparseMapping) (v : Rec)
    (remaining : List Column) (compositeFieldsAreSet : Bool)
    (previousComponents : List Bytes) (endSignal : Signal) (consumed : Nat) :
    Except UnmapErr Rec × Nat :=
  match remaining with
  | [] =>
    match endSignal with
    | .done => (.error .done, consumed)
    | .endBeforeLimit =>
      if compositeFieldsAreSet then (.ok v, consumed)
      else (.error .done, consumed)
    | .endAtLimit => (.error .done, consumed)
  | column :: rest =>
    match m.extractComponents column 1 with
    | .error e => (.error e, consumed + 1)
    | .ok components =>
      if compositeFieldsAreSet then
        if isNewComponents previousComponents components 1 then
          (.ok v, consumed)
        else
          let name := components.getLastD []
          let v2 := if (lookupField v name).isSome then
            updateField v name column.Value else v
          m.unmapLoop v2 rest true components endSignal (consumed + 1)
      else
        match m.unmapComponents v components with
        | .error e => (.error e, consumed + 1)
        | .ok v1 =>
          let name := components.getLastD []
          let v2 := if (lookupField v1 name).isSome then
            updateField v1 name column.Value else v1
          m.unmapLoop v2 rest true components endSignal (consumed + 1)

/-- `sparseMapping.startUnmap` fused with the loop: unmarshal the row
key into the key field, then stream columns. Returns the decoded record
(or error/signal) together with the provider state after the call. -/
def sparseMapping.Unmap (m : sparseMapping) (destination : Rec)
    (provider : RowProvider) : Except UnmapErr Rec × RowProvider :=
  match lookupField destination m.key with
  | none => (.error .keyFieldMissing, provider)
  | some _ =>
    let v := updateField destination m.key provider.key
    let r := m.unmapLoop v (provider.columns.drop provider.pos) false []
      provider.endSignal 0
    (r.1, { provider with pos := provider.pos + r.2 })

-- compactMapping ------------------------------------------------------------

/-- The compact mapping: an embedded sparse mapping (key and component
fields) plus the designated value field name. -/
structure compactMapping where
  sm : sparseMapping
  value : Bytes
deriving DecidableEq

/-- `compactMapping.Map`: identical key/component marshalling, then
exactly one column whose name is the bare composite and whose value is
the marshalled value field, or empty when no value field is declared. -/
def compactMapping.Map (m : compactMapping) (source : Rec) :
    Except MapErr Row :=
  match m.sm.startMap source with
  | .error e => .error e
  | .ok (row, composite) =>
    match lookupField source m.value with
    | some b => .ok { row with Columns := [{ Name := composite, Value := b }] }
    | none => .ok { row with Columns := [{ Name := composite, Value := [] }] }

/-- `compactMapping.Unmap`: read exactly one column (any exhaustion
signal becomes `Done`), decode its components with bias 0 into the
component fields, and unmarshal its value into the value field when
declared. -/
def compactMapping.Unmap (m : compactMapping) (destination : Rec)
    (provider : RowProvider) : Except UnmapErr Rec × RowProvider :=
  match lookupField destination m.sm.key with
  | none => (.error .keyFieldMissing, provider)
  | some _ =>
    let v := updateField destination m.sm.key provider.key
    match provider.columns.drop provider.pos with
    | [] => (.error .done, provider)
    | column :: _ =>
      let provider1 := { provider with pos := provider.pos + 1 }
      match m.sm.extractComponents column 0 with
      | .error e => (.error e, provider1)
      | .ok components =>
        match m.sm.unmapComponents v components with
        | .error e => (.error e, provider1)
        | .ok v1 =>
          let v2 := if (lookupField v1 m.value).isSome then
            updateField v1 m.value column.Value else v1
          (.ok v2, provider1)

-- NewMapping: tag-driven construction ---------------------------------------

/-- The tag metadata `NewMapping` consumes: the struct's global tags
and its declared (Go-facing) field names. -/
structure structInspection where
  globalTags : List (String × String)
  goFields : List String
deriving DecidableEq

/-- Construction errors of `NewMapping`, one per `errors.New` site. -/
inductive ConfigErr where
  | missingCf
  | missingKey
  | keyFieldNotFound
  | colsFieldNotFound
  | valueFieldNotFound
  | badMappingKind
deriving DecidableEq

/-- The mapping value `NewMapping` builds. -/
inductive BuiltMapping where
  | sparse (cf : String) (key : String) (cols : List String)
  | compact (cf : String) (key : String) (value : String) (cols : List String)
deriving DecidableEq

/-- The component-field-name list: the `cols` tag split on commas when
present, empty otherwise. -/
def colsOf (si : structInspection) : List String :=
  match si.globalTags.lookup "cols" with
  | none => []
  | some cols => cols.splitOn ","

/-- The `value` tag check: present but not referencing a declared
field. -/
def valueTagBad (si : structInspection) : Bool :=
  match si.globalTags.lookup "value" with
  | none => false
  | some w => decide (w ∉ si.goFields)

/-- `NewMapping`: validate the `cf`, `key`, `cols`, `value` and
`mapping` tags in source order and build the mapping; `mapping`
defaults to `sparse` when absent and an absent `value` tag leaves the
value field name at Go's zero value (the empty string). -/
def NewMapping (si : structInspection) : Except ConfigErr BuiltMapping :=
  match si.globalTags.lookup "cf" with
  | none => .error .missingCf
  | some cf =>
    match si.globalTags.lookup "key" with
    | none => .error .missingKey
    | some key =>
      if key ∉ si.goFields then .error .keyFieldNotFound
      else if ∃ c ∈ colsOf si, c ∉ si.goFields then .error .colsFieldNotFound
      else if valueTagBad si then .error .valueFieldNotFound
      else
        let value := (si.globalTags.lookup "value").getD ""
        let mapping := (si.globalTags.lookup "mapping").getD "sparse"
        if mapping = "sparse" then .ok (.sparse cf key (colsOf si))
        else if mapping = "compact" then .ok (.compact cf key value (colsOf si))
        else .error .badMappingKind

-- ===========================================================================
-- Claim theorems
-- ===========================================================================

/-- C3 (counterexample): the round trip fails on a single component of
65536 bytes — its 2-byte length field wraps to 0, so decoding returns an
empty first component. -/
theorem c3_counterexample :
    unpackComposite (packComponents [List.replicate 65536 0]) ≠
      [List.replicate 65536 0] := by
  intro h
  have hlen : (List.replicate 65536 (0 : Nat)).length = 65536 :=
    List.length_replicate 65536 0
  have h1 : (65536 : Nat) / 256 % 256 = 0 := by norm_num
  have h2 : (65536 : Nat) % 256 = 0 := by norm_num
  have hpack : packComponents [List.replicate 65536 (0 : Nat)] =
      0 :: 0 :: (List.replicate 65536 (0 : Nat) ++ [eocEquals]) := by
    rw [packComponents_cons, packComponents_nil, List.append_nil]
    simp only [packComposite]
    rw [hlen, h1]
  rw [hpack, unpackComposite_cons] at h
  rw [Nat.zero_mul, Nat.add_zero, List.take_zero] at h
  have h1 := (List.cons.injEq _ _ _ _ ▸ h).1
  have hll := congrArg List.length h1
  rw [List.length_nil, List.length_replicate] at hll
  omega

/-- C3 (amended): the codec round-trips every finite sequence of byte
strings whose components are each shorter than 65536 bytes (including
the empty sequence and zero-length components); each component occupies
its length plus 3 bytes; a zero-component input packs to the empty byte
string. -/
theorem c3_composite_codec (cs : List Bytes) :
    ((∀ c ∈ cs, c.length < 65536) →
      unpackComposite (packComponents cs) = cs) ∧
    (packComponents cs).length = (cs.map (fun c => c.length + 3)).sum ∧
    packComponents [] = [] :=
  ⟨unpackComposite_packComponents cs, packComponents_length cs, rfl⟩

/-- C3 witness: the amended round trip at a concrete sequence with a
zero-length component. -/
theorem c3_composite_codec_witness :
    unpackComposite (packComponents [[5], []]) = [[5], []] :=
  (c3_composite_codec [[5], []]).1 (by decide)

/-- C5: at provider exhaustion the sparse decode loop propagates `Done`
as end-of-data always, turns `EndBeforeLimit` into success exactly when
at least one column of the record was already consumed
(`compositeFieldsAreSet`), and propagates `EndAtLimit` as end-of-data
even mid-group. -/
theorem c5_exhaustion_signals (m : sparseMapping) (v : Rec)
    (prev : List Bytes) (n : Nat) :
    (∀ flag, m.unmapLoop v [] flag prev .done n = (.error .done, n)) ∧
    m.unmapLoop v [] true prev .endBeforeLimit n = (.ok v, n) ∧
    m.unmapLoop v [] false prev .endBeforeLimit n = (.error .done, n) ∧
    (∀ flag, m.unmapLoop v [] flag prev .endAtLimit n = (.error .done, n)) := by
  refine ⟨fun flag => ?_, ?_, ?_, fun flag => ?_⟩ <;>
    simp [sparseMapping.unmapLoop]

/-- C6: a column whose found component count differs from the declared
component count plus the bias fails extraction with the shape-mismatch
error, and the sparse decode loop fails the whole call on such a column
instead of misparsing it. -/
theorem c6_shape_mismatch (m : sparseMapping) (col : Column) :
    (∀ bias, (m.extractedComponents col).length ≠ m.components.length + bias →
      m.extractComponents col bias = .error .shapeMismatch) ∧
    ((m.extractedComponents col).length ≠ m.components.length + 1 →
      ∀ v rest flag prev sig n,
        m.unmapLoop v (col :: rest) flag prev sig n =
          (.error .shapeMismatch, n + 1)) := by
  constructor
  · intro bias h
    simp [sparseMapping.extractComponents, h]
  · intro h v rest flag prev sig n
    have he : m.extractComponents col 1 = .error .shapeMismatch := by
      simp [sparseMapping.extractComponents, h]
    cases flag <;> simp [sparseMapping.unmapLoop, he]

/-- C6 witness: a one-component mapping refuses a column whose name
holds no parseable component (count 0 instead of 2), both in extraction
and in the decode loop. -/
theorem c6_shape_mismatch_witness :
    sparseMapping.extractComponents
      { cf := "", key := [1], components := [[2]] } { Name := [5], Value := [] }
      1 = .error .shapeMismatch ∧
    sparseMapping.unmapLoop { cf := "", key := [1], components := [[2]] }
      [([1], [9])] [{ Name := [5], Value := [] }] false [] .endBeforeLimit 0 =
      (.error .shapeMismatch, 1) :=
  ⟨(c6_shape_mismatch { cf := "", key := [1], components := [[2]] }
      { Name := [5], Value := [] }).1 1 (by decide),
   (c6_shape_mismatch { cf := "", key := [1], components := [[2]] }
      { Name := [5], Value := [] }).2 (by decide)
      [([1], [9])] [] false [] .endBeforeLimit 0⟩

/-- C7: in-group, a column whose decoded trailing field name is not a
declared field is skipped silently — the loop continues on the
remaining columns with the record unchanged. -/
theorem c7_unknown_column_skipped (m : sparseMapping) (v : Rec)
    (col : Column) (rest : List Column) (prev comps : List Bytes)
    (sig : Signal) (n : Nat)
    (hex : m.extractComponents col 1 = .ok comps)
    (hnew : isNewComponents prev comps 1 = false)
    (hname : lookupField v (comps.getLastD []) = none) :
    m.unmapLoop v (col :: rest) true prev sig n =
      m.unmapLoop v rest true comps sig (n + 1) := by
  have hname2 := hname
  rw [List.getLastD_eq_getLast?] at hname2
  simp [sparseMapping.unmapLoop, hex, hnew, hname, hname2]

/-- C7 witness: a no-component mapping skips the unknown bare column
name `[99]` and the loop proceeds unchanged. -/
theorem c7_unknown_column_skipped_witness :
    sparseMapping.unmapLoop { cf := "", key := [1], components := [] }
      [([1], [9])] [{ Name := [99], Value := [5] }] true [[5]]
      .endBeforeLimit 0 =
    sparseMapping.unmapLoop { cf := "", key := [1], components := [] }
      [([1], [9])] [] true [[99]] .endBeforeLimit 1 :=
  c7_unknown_column_skipped { cf := "", key := [1], components := [] }
    [([1], [9])] { Name := [99], Value := [5] } [] [[5]] [[99]]
    .endBeforeLimit 0 (by decide) (by decide) (by decide)

/-- A successful compact `Map` always produces exactly one column. -/
theorem compactMap_one_column (m : compactMapping) (r : Rec) (row : Row)
    (h : m.Map r = .ok row) : ∃ c, row.Columns = [c] := by
  unfold compactMapping.Map at h
  cases hsm : m.sm.startMap r with
  | error e => rw [hsm] at h; cases h
  | ok pr =>
    obtain ⟨row0, composite⟩ := pr
    rw [hsm] at h
    cases hv : lookupField r m.value with
    | none =>
      rw [hv] at h
      cases h
      exact ⟨{ Name := composite, Value := [] }, rfl⟩
    | some b =>
      rw [hv] at h
      cases h
      exact ⟨{ Name := composite, Value := b }, rfl⟩

/-- C10: a compact mapping with zero declared component fields fails
every `Unmap` that receives a column with the shape-mismatch error
(count 1 found, 0 expected), including on the one column its own `Map`
produces. -/
theorem c10_zero_component_compact (m : compactMapping)
    (hz : m.sm.components = []) :
    (∀ dest provider col rest,
      (lookupField dest m.sm.key).isSome = true →
      provider.columns.drop provider.pos = col :: rest →
      (m.Unmap dest provider).1 = .error .shapeMismatch) ∧
    (∀ r row, m.Map r = .ok row → ∀ dest sig,
      (lookupField dest m.sm.key).isSome = true →
      (m.Unmap dest ⟨row.Key, row.Columns, sig, 0⟩).1 =
        .error .shapeMismatch) := by
  have part1 : ∀ (dest : Rec) (provider : RowProvider) col rest,
      (lookupField dest m.sm.key).isSome = true →
      provider.columns.drop provider.pos = col :: rest →
      (m.Unmap dest provider).1 = .error .shapeMismatch := by
    intro dest provider col rest hk hdrop
    obtain ⟨b, hb⟩ := Option.isSome_iff_exists.mp hk
    have hext : m.sm.extractComponents col 0 = .error .shapeMismatch := by
      simp [sparseMapping.extractComponents, sparseMapping.extractedComponents,
        hz]
    simp [compactMapping.Unmap, hb, hdrop, hext]
  refine ⟨part1, ?_⟩
  intro r row hmap dest sig hk
  obtain ⟨c, hc⟩ := compactMap_one_column m r row hmap
  exact part1 dest ⟨row.Key, row.Columns, sig, 0⟩ c [] hk (by simp [hc])

/-- C10 witness: the concrete zero-component compact mapping round
trip fails with the shape-mismatch error on its own `Map` output. -/
theorem c10_zero_component_compact_witness :
    (compactMapping.Unmap ⟨⟨"", [1], []⟩, [3]⟩ [([1], [0]), ([3], [0])]
      ⟨[9], [⟨[], [5]⟩], .done, 0⟩).1 = .error .shapeMismatch :=
  (c10_zero_component_compact ⟨⟨"", [1], []⟩, [3]⟩ rfl).1
    [([1], [0]), ([3], [0])] ⟨[9], [⟨[], [5]⟩], .done, 0⟩
    ⟨[], [5]⟩ [] (by decide) (by decide)

/-- C9: the concrete scenario of the spec — sparse mapping
`cf=users, key=Id, cols=Kind` over the record
`Id=u1, Kind=profile, Name=Alice, Age=30` (field names and values as
their marshalled byte strings) maps to Key `marshal(u1)` and exactly the
two columns `pack([profile, Name])` and `pack([profile, Age])` with
values `marshal(Alice)` and `marshal(30)`, in declared field order. -/
theorem c9_concrete_scenario :
    sparseMapping.Map
      { cf := "users", key := [73, 100], components := [[75, 105, 110, 100]] }
      [([73, 100], [117, 49]),
       ([75, 105, 110, 100], [112, 114, 111, 102, 105, 108, 101]),
       ([78, 97, 109, 101], [65, 108, 105, 99, 101]),
       ([65, 103, 101], [30])] =
    .ok { Key := [117, 49],
          Columns := [
            { Name := packComponents
                [[112, 114, 111, 102, 105, 108, 101], [78, 97, 109, 101]],
              Value := [65, 108, 105, 99, 101] },
            { Name := packComponents
                [[112, 114, 111, 102, 105, 108, 101], [65, 103, 101]],
              Value := [30] }] } := by
  decide
/-- C8: `NewMapping` fails exactly when the `cf` tag is missing, the
`key` tag is missing, the key name is not a declared field, a `cols`
name is not a declared field, a present `value` tag names no declared
field, or the `mapping` tag holds something other than `sparse` or
`compact`; an absent `mapping` tag builds a sparse mapping. -/
theorem c8_new_mapping_validation (si : structInspection) :
    ((∃ e, NewMapping si = .error e) ↔
      (si.globalTags.lookup "cf" = none ∨
       si.globalTags.lookup "key" = none ∨
       (∃ k, si.globalTags.lookup "key" = some k ∧ k ∉ si.goFields) ∨
       (∃ c ∈ colsOf si, c ∉ si.goFields) ∨
       (∃ w, si.globalTags.lookup "value" = some w ∧ w ∉ si.goFields) ∨
       (∃ s, si.globalTags.lookup "mapping" = some s ∧
         s ≠ "sparse" ∧ s ≠ "compact"))) ∧
    (si.globalTags.lookup "mapping" = none →
      ∀ b, NewMapping si = .ok b →
        ∃ cf key cols, b = .sparse cf key cols) := by
  have hvaliff : valueTagBad si = true ↔
      ∃ w, si.globalTags.lookup "value" = some w ∧ w ∉ si.goFields := by
    unfold valueTagBad
    cases hv : si.globalTags.lookup "value" <;> simp [hv]
  constructor
  · rcases hcf : si.globalTags.lookup "cf" with _ | cf
    · simp [NewMapping, hcf]
    · rcases hkey : si.globalTags.lookup "key" with _ | key
      · simp [NewMapping, hcf, hkey]
      · by_cases hk : key ∈ si.goFields
        · by_cases hcols : ∃ c ∈ colsOf si, c ∉ si.goFields
          · simp [NewMapping, hcf, hkey, hk, hcols]
          · by_cases hvb : valueTagBad si = true
            · have hw := hvaliff.mp hvb
              simp [NewMapping, hcf, hkey, hk, hcols, hvb, hw]
            · have hvd : ¬∃ w, si.globalTags.lookup "value" = some w ∧
                  w ∉ si.goFields := fun hw => hvb (hvaliff.mpr hw)
              rcases hmap : si.globalTags.lookup "mapping" with _ | s
              · simp [NewMapping, hcf, hkey, hk, hcols, hvb, hmap, hvd]
              · by_cases hs1 : s = "sparse"
                · simp [NewMapping, hcf, hkey, hk, hcols, hvb, hmap, hvd,
                    hs1]
                · by_cases hs2 : s = "compact"
                  · simp [NewMapping, hcf, hkey, hk, hcols, hvb, hmap, hvd,
                      hs1, hs2]
                  · simp [NewMapping, hcf, hkey, hk, hcols, hvb, hmap, hvd,
                      hs1, hs2]
        · simp [NewMapping, hcf, hkey, hk]
  · intro hm b hb
    rcases hcf : si.globalTags.lookup "cf" with _ | cf
    · simp [NewMapping, hcf] at hb
    · rcases hkey : si.globalTags.lookup "key" with _ | key
      · simp [NewMapping, hcf, hkey] at hb
      · by_cases hk : key ∈ si.goFields
        · by_cases hcols : ∃ c ∈ colsOf si, c ∉ si.goFields
          · simp [NewMapping, hcf, hkey, hk, hcols] at hb
          · by_cases hvb : valueTagBad si = true
            · simp [NewMapping, hcf, hkey, hk, hcols, hvb] at hb
            · simp [NewMapping, hcf, hkey, hk, hcols, hvb, hm] at hb
              exact ⟨cf, key, colsOf si, hb.symm⟩
        · simp [NewMapping, hcf, hkey, hk] at hb

/-- C8 witness: a complete valid tag set with no `mapping` tag builds
the sparse mapping, and a struct missing its `cf` tag fails. -/
theorem c8_new_mapping_validation_witness :
    (∃ cf key cols,
      NewMapping ⟨[("cf", "users"), ("key", "Id")], ["Id", "Name"]⟩ =
        .ok (.sparse cf key cols)) ∧
    (∃ e, NewMapping ⟨[("key", "Id")], ["Id"]⟩ = .error e) := by
  constructor
  · obtain ⟨cf, key, cols, hb⟩ := (c8_new_mapping_validation
      ⟨[("cf", "users"), ("key", "Id")], ["Id", "Name"]⟩).2 (by decide)
      (BuiltMapping.sparse "users" "Id" []) (by decide)
    refine ⟨cf, key, cols, ?_⟩
    rw [show NewMapping ⟨[("cf", "users"), ("key", "Id")], ["Id", "Name"]⟩ =
      Except.ok (BuiltMapping.sparse "users" "Id" []) from by decide]
    rw [hb]
  · exact (c8_new_mapping_validation ⟨[("key", "Id")], ["Id"]⟩).1.mpr
      (Or.inl (by decide))

-- Round-trip machinery -------------------------------------------------------

/-- The marshalled component values of a record, in declared component
order. -/
def componentVals (source : Rec) (cs : List Bytes) : List Bytes :=
  cs.map (fun c => (lookupField source c).getD [])

/-- The fields `sparseMapping.Map` emits one column for: everything but
the key field and the component fields, in declared order. -/
def freeFields (m : sparseMapping) (source : Rec) : Rec :=
  source.filter (fun f => decide (¬(f.1 = m.key ∨ f.1 ∈ m.components)))

/-- The column `sparseMapping.Map` builds for one free field. -/
def mkFreeColumn (vals : List Bytes) (f : Bytes × Bytes) : Column :=
  { Name := mkColumnName (packComponents vals) f.1, Value := f.2 }

theorem buildComposite_ok (source : Rec) (cs : List Bytes) (acc : Bytes)
    (h : ∀ c ∈ cs, (lookupField source c).isSome = true) :
    buildComposite source cs acc =
      .ok (acc ++ packComponents (componentVals source cs)) := by
  induction cs generalizing acc with
  | nil => simp [buildComposite, componentVals, packComponents_nil]
  | cons c rest ih =>
    obtain ⟨b, hb⟩ := Option.isSome_iff_exists.mp (h c (by simp))
    rw [buildComposite, hb]
    show buildComposite source rest (acc ++ packComposite b eocEquals) = _
    rw [ih _ (fun x hx => h x (by simp [hx]))]
    simp [componentVals, packComponents_cons, hb]

theorem startMap_ok (m : sparseMapping) (source : Rec) (kb : Bytes)
    (hk : lookupField source m.key = some kb)
    (hc : ∀ c ∈ m.components, (lookupField source c).isSome = true) :
    m.startMap source = .ok ({ Key := kb, Columns := [] },
      packComponents (componentVals source m.components)) := by
  rw [sparseMapping.startMap, hk, buildComposite_ok source m.components [] hc]
  simp

theorem sparseMap_foldl (m : sparseMapping) (composite : Bytes)
    (source : Rec) (acc : List Column) :
    source.foldl (fun acc f =>
      if f.1 = m.key then acc
      else if f.1 ∈ m.components then acc
      else acc ++ [{ Name := mkColumnName composite f.1, Value := f.2 }]) acc =
    acc ++ (source.filter
        (fun f => decide (¬(f.1 = m.key ∨ f.1 ∈ m.components)))).map
      (fun f => { Name := mkColumnName composite f.1, Value := f.2 }) := by
  induction source generalizing acc with
  | nil => simp
  | cons f rest ih =>
    by_cases h1 : f.1 = m.key
    · simp [List.foldl_cons, List.filter_cons, h1, ih]
    · by_cases h2 : f.1 ∈ m.components
      · simp [List.foldl_cons, List.filter_cons, h1, h2, ih]
      · simp [List.foldl_cons, List.filter_cons, h1, h2, ih]

/-- Characterization of a successful sparse `Map`: the row key is the
marshalled key field and the columns are exactly one per free field, in
declared order, named by the shared composite plus the field name. -/
theorem sparseMap_ok (m : sparseMapping) (source : Rec) (kb : Bytes)
    (hk : lookupField source m.key = some kb)
    (hc : ∀ c ∈ m.components, (lookupField source c).isSome = true) :
    m.Map source = .ok ⟨kb, (freeFields m source).map
      (mkFreeColumn (componentVals source m.components))⟩ := by
  have h1 := startMap_ok m source kb hk hc
  simp only [sparseMapping.Map, h1]
  rw [sparseMap_foldl]
  rfl

theorem getLastD_concat (l : List Bytes) (a d : Bytes) :
    (l ++ [a]).getLastD d = a := by
  rw [List.getLastD_eq_getLast?, List.getLast?_concat]
  rfl

theorem zip_trunc (cs : List Bytes) :
    ∀ (vals x : List Bytes), cs.length = vals.length →
      cs.zip (vals ++ x) = cs.zip vals := by
  induction cs with
  | nil => intro vals x _; simp
  | cons c cr ih =>
    intro vals x h
    cases vals with
    | nil => simp at h
    | cons v vr =>
      simp only [List.cons_append, List.zip_cons_cons, List.length_cons] at *
      rw [ih vr x (by omega)]

theorem mem_zip_map_eq (g : Bytes → Bytes) :
    ∀ (cs : List Bytes) (p : Bytes × Bytes), p ∈ cs.zip (cs.map g) →
      p.2 = g p.1 := by
  intro cs
  induction cs with
  | nil => intro p hp; simp at hp
  | cons c cr ih =>
    intro p hp
    simp only [List.map_cons, List.zip_cons_cons, List.mem_cons] at hp
    rcases hp with hp | hp
    · subst hp; rfl
    · exact ih p hp

theorem lookupField_mem (r : Rec) (n b : Bytes)
    (h : lookupField r n = some b) : (n, b) ∈ r := by
  induction r with
  | nil => simp [lookupField] at h
  | cons f rest ih =>
    by_cases hf : f.1 = n
    · simp only [lookupField, if_pos hf, Option.some.injEq] at h
      have hfe : (n, b) = f := by
        cases f
        simp at hf h ⊢
        exact ⟨hf.symm, h.symm⟩
      rw [hfe]
      exact List.mem_cons_self _ _
    · simp only [lookupField, if_neg hf] at h
      exact List.mem_cons_of_mem _ (ih h)

theorem lookupField_of_mem_nodup (r : Rec) (hnd : (keysOf r).Nodup)
    (f : Bytes × Bytes) (hf : f ∈ r) : lookupField r f.1 = some f.2 := by
  induction r with
  | nil => simp at hf
  | cons g rest ih =>
    simp only [keysOf, List.map_cons, List.nodup_cons] at hnd
    rcases List.mem_cons.mp hf with h | h
    · subst h
      simp [lookupField]
    · have hne : ¬g.1 = f.1 := by
        intro he
        exact hnd.1 (he ▸ List.mem_map.mpr ⟨f, h, rfl⟩)
      simp only [lookupField, if_neg hne]
      exact ih hnd.2 h

theorem packComponents_pos (c : Bytes) (cs : List Bytes) :
    0 < (packComponents (c :: cs)).length := by
  rw [packComponents_cons]
  simp [packComposite_length]

/-- What extraction finds on a column `Map` built for a free field:
the component values followed by the field name. -/
theorem extractComponents_mkCol (m : sparseMapping) (vals : List Bytes)
    (nm val : Bytes) (hlen : vals.length = m.components.length)
    (hb : ∀ b ∈ vals, b.length < 65536) (hn : nm.length < 65536) :
    m.extractComponents (mkFreeColumn vals (nm, val)) 1 = .ok (vals ++ [nm]) := by
  cases hcomp : m.components with
  | nil =>
    have hv : vals = [] := by
      rw [hcomp] at hlen
      exact List.length_eq_zero.mp hlen
    subst hv
    simp [sparseMapping.extractComponents, sparseMapping.extractedComponents,
      hcomp, mkFreeColumn, mkColumnName, packComponents_nil]
  | cons c cs =>
    have hvpos : 0 < vals.length := by
      rw [hlen, hcomp]
      simp
    have hclen : 0 < (packComponents vals).length := by
      cases vals with
      | nil => simp at hvpos
      | cons v vs => exact packComponents_pos v vs
    have hname : mkColumnName (packComponents vals) nm =
        packComponents (vals ++ [nm]) := by
      rw [mkColumnName, if_pos hclen, packComponents_append]
      simp [packComponents_cons, packComponents_nil]
    have hunp : unpackComposite (packComponents (vals ++ [nm])) =
        vals ++ [nm] := by
      apply unpackComposite_packComponents
      intro x hx
      rcases List.mem_append.mp hx with h | h
      · exact hb x h
      · simp at h
        subst h
        exact hn
    have hcnt : (vals ++ [nm]).length = m.components.length + 1 := by
      simp [hlen]
    simp [sparseMapping.extractComponents, sparseMapping.extractedComponents,
      mkFreeColumn, hname, hunp, hcomp, hcnt, ← hlen, hvpos]

theorem isNewComponents_same (vals : List Bytes) (g f : Bytes) :
    isNewComponents (vals ++ [g]) (vals ++ [f]) 1 = false := by
  unfold isNewComponents
  rw [if_neg (by simp)]
  rw [List.any_eq_false]
  intro i hi
  simp only [List.mem_range, List.length_append, List.length_singleton] at hi
  have hi2 : i < vals.length := by omega
  rw [List.getD_append _ _ _ _ hi2, List.getD_append _ _ _ _ hi2]
  simp

theorem isNewComponents_diff (vals1 vals2 : List Bytes) (g f : Bytes)
    (hlen : vals1.length = vals2.length) (hne : vals1 ≠ vals2) :
    isNewComponents (vals1 ++ [g]) (vals2 ++ [f]) 1 = true := by
  unfold isNewComponents
  rw [if_neg (by simp [hlen])]
  rw [List.any_eq_true]
  have hex : ∃ i, i < vals1.length ∧ vals1.getD i [] ≠ vals2.getD i [] := by
    by_contra hno
    push_neg at hno
    apply hne
    apply List.ext_getElem hlen
    intro i h1 h2
    have := hno i h1
    rwa [List.getD_eq_getElem _ _ h1, List.getD_eq_getElem _ _ h2] at this
  obtain ⟨i, hi, hne_i⟩ := hex
  refine ⟨i, ?_, ?_⟩
  · simp only [List.mem_range, List.length_append, List.length_singleton]
    omega
  · rw [List.getD_append _ _ _ _ hi, List.getD_append _ _ _ _ (hlen ▸ hi)]
    simpa using hne_i

-- Loop step lemmas -----------------------------------------------------------

theorem unmapLoop_step_known (m : sparseMapping) (v : Rec) (col : Column)
    (rest : List Column) (prev comps : List Bytes) (sig : Signal) (n : Nat)
    (hex : m.extractComponents col 1 = .ok comps)
    (hnew : isNewComponents prev comps 1 = false)
    (hsome : (lookupField v (comps.getLastD [])).isSome = true) :
    m.unmapLoop v (col :: rest) true prev sig n =
      m.unmapLoop (updateField v (comps.getLastD []) col.Value) rest true
        comps sig (n + 1) := by
  have hsome2 := hsome
  rw [List.getLastD_eq_getLast?] at hsome2
  simp [sparseMapping.unmapLoop, hex, hnew, hsome, hsome2,
    List.getLastD_eq_getLast?]

theorem unmapLoop_step_first (m : sparseMapping) (v v1 : Rec) (col : Column)
    (rest : List Column) (prev comps : List Bytes) (sig : Signal) (n : Nat)
    (hex : m.extractComponents col 1 = .ok comps)
    (hunm : m.unmapComponents v comps = .ok v1)
    (hsome : (lookupField v1 (comps.getLastD [])).isSome = true) :
    m.unmapLoop v (col :: rest) false prev sig n =
      m.unmapLoop (updateField v1 (comps.getLastD []) col.Value) rest true
        comps sig (n + 1) := by
  have hsome2 := hsome
  rw [List.getLastD_eq_getLast?] at hsome2
  simp [sparseMapping.unmapLoop, hex, hunm, hsome, hsome2,
    List.getLastD_eq_getLast?]

theorem unmapLoop_stop_new (m : sparseMapping) (v : Rec) (col : Column)
    (rest : List Column) (prev comps : List Bytes) (sig : Signal) (n : Nat)
    (hex : m.extractComponents col 1 = .ok comps)
    (hnew : isNewComponents prev comps 1 = true) :
    m.unmapLoop v (col :: rest) true prev sig n = (.ok v, n) := by
  simp [sparseMapping.unmapLoop, hex, hnew]

-- Accumulated field updates --------------------------------------------------

/-- A sequence of field writes applied left to right. -/
def applyUpdates (v : Rec) (ps : List (Bytes × Bytes)) : Rec :=
  ps.foldl (fun v p => updateField v p.1 p.2) v

theorem applyUpdates_nil (v : Rec) : applyUpdates v [] = v := rfl

theorem applyUpdates_cons (v : Rec) (p : Bytes × Bytes)
    (ps : List (Bytes × Bytes)) :
    applyUpdates v (p :: ps) = applyUpdates (updateField v p.1 p.2) ps := rfl

theorem applyUpdates_append (v : Rec) (ps qs : List (Bytes × Bytes)) :
    applyUpdates v (ps ++ qs) = applyUpdates (applyUpdates v ps) qs := by
  simp [applyUpdates, List.foldl_append]

theorem keysOf_applyUpdates (ps : List (Bytes × Bytes)) :
    ∀ v : Rec, keysOf (applyUpdates v ps) = keysOf v := by
  induction ps with
  | nil => intro v; rfl
  | cons p rest ih =>
    intro v
    rw [applyUpdates_cons, ih, keysOf_updateField]

/-- After a run of updates each of which writes the value the reference
record `r` holds for its field, a name that was written reads back `r`'s
value and any other name is untouched. -/
theorem lookupField_applyUpdates (r : Rec) (ps : List (Bytes × Bytes)) :
    ∀ (v : Rec) (q : Bytes),
      (∀ p ∈ ps, lookupField r p.1 = some p.2) →
      (∀ p ∈ ps, p.1 ∈ keysOf v) →
      lookupField (applyUpdates v ps) q =
        (if q ∈ ps.map Prod.fst then lookupField r q else lookupField v q) := by
  induction ps with
  | nil => intro v q _ _; simp [applyUpdates_nil]
  | cons p rest ih =>
    intro v q hps hkeys
    rw [applyUpdates_cons]
    rw [ih (updateField v p.1 p.2) q
      (fun x hx => hps x (List.mem_cons_of_mem _ hx))
      (fun x hx => by
        rw [keysOf_updateField]
        exact hkeys x (List.mem_cons_of_mem _ hx))]
    by_cases hq : q ∈ rest.map Prod.fst
    · rw [if_pos hq, if_pos]
      simp only [List.map_cons, List.mem_cons]
      exact Or.inr hq
    · rw [if_neg hq]
      by_cases hq1 : q = p.1
      · subst hq1
        rw [lookupField_updateField_same v p.1 p.2 (hkeys p (by simp))]
        rw [if_pos (by simp), hps p (by simp)]
      · rw [lookupField_updateField_other v p.1 q p.2 hq1]
        rw [if_neg]
        simp only [List.map_cons, List.mem_cons]
        rintro (h | h)
        · exact hq1 h
        · exact hq h

-- unmapComponents characterization ------------------------------------------

theorem unmapComponentsGo_ok (ps : List (Bytes × Bytes)) :
    ∀ v : Rec, (∀ p ∈ ps, p.1 ∈ keysOf v) →
      unmapComponentsGo v ps = .ok (applyUpdates v ps) := by
  induction ps with
  | nil => intro v _; rfl
  | cons p rest ih =>
    intro v h
    obtain ⟨c, b⟩ := p
    have hc : (lookupField v c).isSome = true :=
      (lookupField_isSome_iff v c).mpr (h (c, b) (by simp))
    rw [unmapComponentsGo, if_pos hc, applyUpdates_cons]
    exact ih (updateField v c b) (fun x hx => by
      rw [keysOf_updateField]
      exact h x (List.mem_cons_of_mem _ hx))

/-- Decoding the component values (with one trailing extra component,
as sparse columns carry) writes each value into its component field. -/
theorem unmapComponents_ok (m : sparseMapping) (v : Rec) (vals : List Bytes)
    (extra : List Bytes)
    (hlen : vals.length = m.components.length)
    (h : ∀ c ∈ m.components, c ∈ keysOf v) :
    m.unmapComponents v (vals ++ extra) =
      .ok (applyUpdates v (m.components.zip vals)) := by
  rw [sparseMapping.unmapComponents, zip_trunc m.components vals extra hlen.symm]
  apply unmapComponentsGo_ok
  intro p hp
  obtain ⟨c, b⟩ := p
  exact h c (List.of_mem_zip hp).1

theorem getLastD_cons_eq (x : Bytes) (xs : List Bytes) (d : Bytes) :
    (x :: xs).getLastD d = xs.getLastD x := by
  cases xs <;> rfl

/-- Running the in-group loop over the columns of the remaining free
fields of one record: every column continues the group, writes its
field, and advances the consumed count. -/
theorem unmapLoop_group (m : sparseMapping) (vals : List Bytes)
    (tail : List Column) (sig : Signal)
    (hlen : vals.length = m.components.length)
    (hvb : ∀ b ∈ vals, b.length < 65536) :
    ∀ (fs : Rec) (v : Rec) (g : Bytes) (n : Nat),
      (∀ f ∈ fs, f.1.length < 65536) →
      (∀ f ∈ fs, f.1 ∈ keysOf v) →
      m.unmapLoop v (fs.map (mkFreeColumn vals) ++ tail) true (vals ++ [g])
        sig n =
      m.unmapLoop (applyUpdates v fs) tail true
        (vals ++ [(fs.map Prod.fst).getLastD g]) sig (n + fs.length) := by
  intro fs
  induction fs with
  | nil =>
    intro v g n _ _
    simp [applyUpdates_nil]
  | cons f fs ih =>
    intro v g n hb hkeys
    obtain ⟨nm, val⟩ := f
    simp only [List.map_cons, List.cons_append]
    have hex : m.extractComponents (mkFreeColumn vals (nm, val)) 1 =
        .ok (vals ++ [nm]) :=
      extractComponents_mkCol m vals nm val hlen hvb (hb (nm, val) (by simp))
    have hnew : isNewComponents (vals ++ [g]) (vals ++ [nm]) 1 = false :=
      isNewComponents_same vals g nm
    have hlast : (vals ++ [nm]).getLastD [] = nm := getLastD_concat vals nm []
    have hsome : (lookupField v ((vals ++ [nm]).getLastD [])).isSome = true := by
      rw [hlast]
      exact (lookupField_isSome_iff v nm).mpr (hkeys (nm, val) (by simp))
    rw [unmapLoop_step_known m v (mkFreeColumn vals (nm, val))
      (fs.map (mkFreeColumn vals) ++ tail) (vals ++ [g]) (vals ++ [nm])
      sig n hex hnew hsome]
    rw [hlast]
    have hval : (mkFreeColumn vals (nm, val)).Value = val := rfl
    rw [hval]
    rw [ih (updateField v nm val) nm (n + 1)
      (fun x hx => hb x (by simp [hx]))
      (fun x hx => by
        rw [keysOf_updateField]
        exact hkeys x (by simp [hx]))]
    rw [show applyUpdates v ((nm, val) :: fs) =
      applyUpdates (updateField v nm val) fs from rfl]
    rw [getLastD_cons_eq nm (List.map Prod.fst fs) g]
    simp only [List.length_cons]
    rw [show n + 1 + fs.length = n + (fs.length + 1) from by omega]

/-- Decoding one whole group from the `AwaitingFirstColumn` state: the
first column sets the component fields and its own field, the remaining
free-field columns continue the group. -/
theorem unmapLoop_decode_group (m : sparseMapping) (vals : List Bytes)
    (tail : List Column) (sig : Signal) (f0 : Bytes × Bytes) (fs v : Rec)
    (prev : List Bytes) (n : Nat)
    (hlen : vals.length = m.components.length)
    (hvb : ∀ b ∈ vals, b.length < 65536)
    (hb : ∀ f ∈ (f0 :: fs : Rec), f.1.length < 65536)
    (hkeys : ∀ f ∈ (f0 :: fs : Rec), f.1 ∈ keysOf v)
    (hcomp : ∀ c ∈ m.components, c ∈ keysOf v) :
    m.unmapLoop v (((f0 :: fs : Rec).map (mkFreeColumn vals)) ++ tail) false
      prev sig n =
    m.unmapLoop (applyUpdates v (m.components.zip vals ++ (f0 :: fs))) tail
      true (vals ++ [((f0 :: fs : Rec).map Prod.fst).getLastD []]) sig
      (n + (fs.length + 1)) := by
  obtain ⟨nm, val⟩ := f0
  simp only [List.map_cons, List.cons_append]
  have hex : m.extractComponents (mkFreeColumn vals (nm, val)) 1 =
      .ok (vals ++ [nm]) :=
    extractComponents_mkCol m vals nm val hlen hvb (hb (nm, val) (by simp))
  have hunm : m.unmapComponents v (vals ++ [nm]) =
      .ok (applyUpdates v (m.components.zip vals)) :=
    unmapComponents_ok m v vals [nm] hlen hcomp
  have hlast : (vals ++ [nm]).getLastD [] = nm := getLastD_concat vals nm []
  have hsome : (lookupField (applyUpdates v (m.components.zip vals))
      ((vals ++ [nm]).getLastD [])).isSome = true := by
    rw [hlast]
    rw [lookupField_isSome_iff, keysOf_applyUpdates]
    exact hkeys (nm, val) (by simp)
  rw [unmapLoop_step_first m v (applyUpdates v (m.components.zip vals))
    (mkFreeColumn vals (nm, val)) (fs.map (mkFreeColumn vals) ++ tail)
    prev (vals ++ [nm]) sig n hex hunm hsome]
  rw [hlast]
  have hval : (mkFreeColumn vals (nm, val)).Value = val := rfl
  rw [hval]
  rw [unmapLoop_group m vals tail sig hlen hvb fs
    (updateField (applyUpdates v (m.components.zip vals)) nm val) nm (n + 1)
    (fun x hx => hb x (by simp [hx]))
    (fun x hx => by
      rw [keysOf_updateField, keysOf_applyUpdates]
      exact hkeys x (by simp [hx]))]
  rw [show applyUpdates v (m.components.zip vals ++ ((nm, val) :: fs)) =
    applyUpdates (updateField (applyUpdates v (m.components.zip vals)) nm val)
      fs from by rw [applyUpdates_append, applyUpdates_cons]]
  rw [getLastD_cons_eq nm (List.map Prod.fst fs) []]
  rw [show n + 1 + fs.length = n + (fs.length + 1) from by omega]

/-- Full decode of one logical record's group by `sparseMapping.Unmap`,
for the group's columns presented in ANY order: `fsP` is the emitted
free fields in the order the provider serves their columns (any
arrangement whose entries come from the record and that covers every
free field — in particular any permutation of the free-field list, such
as the one the store's Name ordering induces). The call returns the
record reassembled exactly and leaves the cursor right after the
group. -/
theorem sparse_unmap_group_perm (m : sparseMapping) (r dest : Rec)
    (kb : Bytes) (fsP : Rec) (tail : List Column) (sig : Signal)
    (provider : RowProvider)
    (hk : lookupField r m.key = some kb)
    (hcomp : ∀ c ∈ m.components, (lookupField r c).isSome = true)
    (hkeys : keysOf dest = keysOf r)
    (hnd : (keysOf r).Nodup)
    (hbound : ∀ f ∈ r, f.1.length < 65536 ∧ f.2.length < 65536)
    (hsubP : ∀ f ∈ fsP, f ∈ r)
    (hcovP : ∀ f ∈ freeFields m r, f.1 ∈ fsP.map Prod.fst)
    (hneP : fsP ≠ [])
    (htail : ∀ (v : Rec) (g : Bytes) (n : Nat),
      m.unmapLoop v tail true (componentVals r m.components ++ [g]) sig n =
        (.ok v, n))
    (hpkey : provider.key = kb)
    (hsig : provider.endSignal = sig)
    (hcols : provider.columns.drop provider.pos =
      fsP.map (mkFreeColumn (componentVals r m.components)) ++ tail) :
    m.Unmap dest provider =
      (.ok r, { provider with pos := provider.pos + fsP.length }) := by
  have hvlen : (componentVals r m.components).length = m.components.length := by
    simp [componentVals]
  have hvb : ∀ b ∈ componentVals r m.components, b.length < 65536 := by
    intro b hbmem
    simp only [componentVals, List.mem_map] at hbmem
    obtain ⟨c, hc, hcb⟩ := hbmem
    obtain ⟨b', hb'⟩ := Option.isSome_iff_exists.mp (hcomp c hc)
    rw [hb'] at hcb
    simp only [Option.getD_some] at hcb
    rw [← hcb]
    exact (hbound (c, b') (lookupField_mem r c b' hb')).2
  have hkmem : m.key ∈ keysOf r :=
    (lookupField_isSome_iff r m.key).mp (by simp [hk])
  have hkd : m.key ∈ keysOf dest := by
    rw [hkeys]
    exact hkmem
  obtain ⟨b0, hb0⟩ := Option.isSome_iff_exists.mp
    ((lookupField_isSome_iff dest m.key).mpr hkd)
  obtain ⟨f0, fs, hfr⟩ : ∃ f0 fs, fsP = f0 :: fs := by
    cases hf : fsP with
    | nil => exact absurd hf hneP
    | cons a b => exact ⟨a, b, rfl⟩
  have hb_free : ∀ f ∈ (f0 :: fs : Rec), f.1.length < 65536 := by
    rw [← hfr]
    intro f hf
    exact (hbound f (hsubP f hf)).1
  have hkeys_free : ∀ f ∈ (f0 :: fs : Rec),
      f.1 ∈ keysOf (updateField dest m.key provider.key) := by
    rw [← hfr]
    intro f hf
    rw [keysOf_updateField, hkeys]
    exact List.mem_map.mpr ⟨f, hsubP f hf, rfl⟩
  have hcomp_v0 : ∀ c ∈ m.components,
      c ∈ keysOf (updateField dest m.key provider.key) := by
    intro c hc
    rw [keysOf_updateField, hkeys]
    exact (lookupField_isSome_iff r c).mp (hcomp c hc)
  have hrec : applyUpdates (updateField dest m.key provider.key)
      (m.components.zip (componentVals r m.components) ++ (f0 :: fs)) = r := by
    have hform : ∀ X : List (Bytes × Bytes),
        applyUpdates (updateField dest m.key provider.key) X =
          applyUpdates dest ((m.key, kb) :: X) := by
      intro X
      rw [hpkey]
      rfl
    rw [hform]
    refine rec_eq_of_lookup_eq _ r ?_ hnd ?_
    · rw [keysOf_applyUpdates, hkeys]
    · intro q hq
      have hps : ∀ p ∈ (m.key, kb) ::
          (m.components.zip (componentVals r m.components) ++ (f0 :: fs)),
          lookupField r p.1 = some p.2 := by
        intro p hp
        rcases List.mem_cons.mp hp with hp | hp
        · subst hp
          exact hk
        · rcases List.mem_append.mp hp with hp | hp
          · obtain ⟨c, b⟩ := p
            have hcm : c ∈ m.components := (List.of_mem_zip hp).1
            have hbg : b = (lookupField r c).getD [] :=
              mem_zip_map_eq _ m.components (c, b) hp
            obtain ⟨b', hb'⟩ := Option.isSome_iff_exists.mp (hcomp c hcm)
            rw [hb'] at hbg
            simp only [Option.getD_some] at hbg
            rw [hb', hbg]
          · rw [← hfr] at hp
            exact lookupField_of_mem_nodup r hnd p (hsubP p hp)
      have hkeys2 : ∀ p ∈ (m.key, kb) ::
          (m.components.zip (componentVals r m.components) ++ (f0 :: fs)),
          p.1 ∈ keysOf dest := by
        intro p hp
        rw [hkeys]
        rcases List.mem_cons.mp hp with hp | hp
        · subst hp
          exact hkmem
        · rcases List.mem_append.mp hp with hp | hp
          · exact (lookupField_isSome_iff r p.1).mp
              (hcomp p.1 (List.of_mem_zip hp).1)
          · rw [← hfr] at hp
            exact List.mem_map.mpr ⟨p, hsubP p hp, rfl⟩
      rw [lookupField_applyUpdates r _ dest q hps hkeys2]
      rw [if_pos]
      simp only [List.map_cons, List.map_append, List.mem_cons,
        List.mem_append]
      by_cases hq1 : q = m.key
      · exact Or.inl hq1
      · by_cases hq2 : q ∈ m.components
        · refine Or.inr (Or.inl ?_)
          rw [List.map_fst_zip m.components (componentVals r m.components)
            (le_of_eq hvlen.symm)]
          exact hq2
        · refine Or.inr (Or.inr ?_)
          obtain ⟨f, hfmem, hfq⟩ := List.mem_map.mp hq
          have hff : f ∈ freeFields m r := by
            rw [freeFields, List.mem_filter]
            refine ⟨hfmem, ?_⟩
            simp only [decide_eq_true_eq]
            rw [hfq]
            rintro (h | h)
            · exact hq1 h
            · exact hq2 h
          have hcp := hcovP f hff
          rw [hfr] at hcp
          rw [hfq] at hcp
          simpa using hcp
  have hdg := unmapLoop_decode_group m (componentVals r m.components) tail sig
    f0 fs (updateField dest m.key provider.key) [] 0 hvlen hvb hb_free
    hkeys_free hcomp_v0
  simp only [sparseMapping.Unmap, hb0]
  rw [hcols, hfr, hsig]
  rw [hdg]
  rw [htail _ _ _]
  rw [hrec]
  simp

/-- Full decode of one logical record's group by `sparseMapping.Unmap`
with the columns in `Map`'s own emission (declared-field) order: the
special case of `sparse_unmap_group_perm` at the identity arrangement. -/
theorem sparse_unmap_group (m : sparseMapping) (r dest : Rec) (kb : Bytes)
    (tail : List Column) (sig : Signal) (provider : RowProvider)
    (hk : lookupField r m.key = some kb)
    (hcomp : ∀ c ∈ m.components, (lookupField r c).isSome = true)
    (hkeys : keysOf dest = keysOf r)
    (hnd : (keysOf r).Nodup)
    (hbound : ∀ f ∈ r, f.1.length < 65536 ∧ f.2.length < 65536)
    (hfree : freeFields m r ≠ [])
    (htail : ∀ (v : Rec) (g : Bytes) (n : Nat),
      m.unmapLoop v tail true (componentVals r m.components ++ [g]) sig n =
        (.ok v, n))
    (hpkey : provider.key = kb)
    (hsig : provider.endSignal = sig)
    (hcols : provider.columns.drop provider.pos =
      (freeFields m r).map (mkFreeColumn (componentVals r m.components)) ++
        tail) :
    m.Unmap dest provider =
      (.ok r, { provider with pos := provider.pos + (freeFields m r).length }) :=
  sparse_unmap_group_perm m r dest kb (freeFields m r) tail sig provider hk
    hcomp hkeys hnd hbound (fun _ hf => List.mem_of_mem_filter hf)
    (fun f hf => List.mem_map.mpr ⟨f, hf, rfl⟩) hfree htail hpkey hsig hcols

theorem componentVals_bound (m : sparseMapping) (r : Rec)
    (hcomp : ∀ c ∈ m.components, (lookupField r c).isSome = true)
    (hbound : ∀ f ∈ r, f.1.length < 65536 ∧ f.2.length < 65536) :
    ∀ b ∈ componentVals r m.components, b.length < 65536 := by
  intro b hbmem
  simp only [componentVals, List.mem_map] at hbmem
  obtain ⟨c, hc, hcb⟩ := hbmem
  obtain ⟨b', hb'⟩ := Option.isSome_iff_exists.mp (hcomp c hc)
  rw [hb'] at hcb
  simp only [Option.getD_some] at hcb
  rw [← hcb]
  exact (hbound (c, b') (lookupField_mem r c b' hb')).2

-- Column streams in arbitrary order, and the store's Name order --------------

/-- Splitting a mapped list at the first preimage of an element, with
the matching `erase` equation. -/
theorem erase_map_split {α β : Type} [DecidableEq α] [DecidableEq β]
    (g : α → β) (b : β) :
    ∀ l : List α, b ∈ l.map g →
      ∃ u a v, l = u ++ a :: v ∧ g a = b ∧
        (l.map g).erase b = (u ++ v).map g := by
  intro l
  induction l with
  | nil =>
    intro h
    simp at h
  | cons x xs ih =>
    intro h
    by_cases hx : g x = b
    · refine ⟨[], x, xs, rfl, hx, ?_⟩
      simp [List.erase_cons, hx]
    · have hb : b ∈ xs.map g := by
        have h2 : b = g x ∨ ∃ a ∈ xs, g a = b := by simpa using h
        rcases h2 with h2 | ⟨a, ha, hab⟩
        · exact absurd h2.symm hx
        · exact List.mem_map.mpr ⟨a, ha, hab⟩
      obtain ⟨u, a, v, hl, hab, herase⟩ := ih hb
      refine ⟨x :: u, a, v, by rw [hl]; rfl, hab, ?_⟩
      rw [List.map_cons, List.erase_cons]
      rw [if_neg (by simpa using hx)]
      rw [herase]
      simp

/-- A permutation of a mapped list is itself a mapped list: any
reordering of `l₁.map g` arises as `l₀.map g` for a reordering `l₀` of
`l₁`. -/
theorem exists_perm_map {α β : Type} [DecidableEq α] [DecidableEq β]
    (g : α → β) :
    ∀ (l₂ : List β) (l₁ : List α), l₂.Perm (l₁.map g) →
      ∃ l₀ : List α, l₀.Perm l₁ ∧ l₂ = l₀.map g := by
  intro l₂
  induction l₂ with
  | nil =>
    intro l₁ h
    have hmap : l₁.map g = [] := List.Perm.eq_nil h.symm
    have hl : l₁ = [] := by
      cases l₁ with
      | nil => rfl
      | cons x xs => simp at hmap
    refine ⟨[], ?_, rfl⟩
    rw [hl]
  | cons b t ih =>
    intro l₁ h
    have hb : b ∈ l₁.map g := h.mem_iff.mp (List.mem_cons_self b t)
    obtain ⟨u, a, v, hl, hab, herase⟩ := erase_map_split g b l₁ hb
    have ht : t.Perm ((l₁.map g).erase b) :=
      (List.cons_perm_iff_perm_erase.mp h).2
    rw [herase] at ht
    obtain ⟨l₀, hperm, hmap⟩ := ih (u ++ v) ht
    refine ⟨a :: l₀, ?_, ?_⟩
    · rw [hl]
      exact (hperm.cons a).trans List.perm_middle.symm
    · rw [List.map_cons, hab, ← hmap]

/-- Lexicographic order on byte strings: the store comparator's Name
ordering the spec fixes for columns within a row. -/
def lexLe : Bytes → Bytes → Bool
  | [], _ => true
  | _ :: _, [] => false
  | a :: as, b :: bs =>
    if a < b then true
    else if b < a then false
    else lexLe as bs

theorem lexLe_total : ∀ a b : Bytes, lexLe a b = true ∨ lexLe b a = true := by
  intro a
  induction a with
  | nil =>
    intro b
    left
    rfl
  | cons x as ih =>
    intro b
    cases b with
    | nil =>
      right
      rfl
    | cons y bs =>
      by_cases h1 : x < y
      · left
        simp [lexLe, h1]
      · by_cases h2 : y < x
        · right
          simp [lexLe, h2]
        · have hxy : x = y := by omega
          subst hxy
          rcases ih bs with h | h
          · left
            simp [lexLe, h1, h2, h]
          · right
            simp [lexLe, h1, h2, h]

theorem lexLe_trans : ∀ a b c : Bytes,
    lexLe a b = true → lexLe b c = true → lexLe a c = true := by
  intro a
  induction a with
  | nil =>
    intro b c _ _
    rfl
  | cons x as ih =>
    intro b c h1 h2
    cases b with
    | nil => simp [lexLe] at h1
    | cons y bs =>
      cases c with
      | nil => simp [lexLe] at h2
      | cons z cs =>
        simp only [lexLe] at h1 h2 ⊢
        by_cases hxy : x < y
        · by_cases hyz : y < z
          · rw [if_pos (by omega : x < z)]
          · by_cases hzy : z < y
            · rw [if_neg hyz, if_pos hzy] at h2
              cases h2
            · rw [if_pos (by omega : x < z)]
        · by_cases hyx : y < x
          · rw [if_neg hxy, if_pos hyx] at h1
            cases h1
          · have hxy2 : x = y := by omega
            subst hxy2
            rw [if_neg hxy, if_neg hyx] at h1
            by_cases hxz : x < z
            · rw [if_pos hxz]
            · by_cases hzx : z < x
              · rw [if_neg hxz, if_pos hzx] at h2
                cases h2
              · rw [if_neg hxz, if_neg hzx] at h2 ⊢
                exact ih bs cs h1 h2

/-- Insert one column into a Name-ordered column list. -/
def insertByName (c : Column) : List Column → List Column
  | [] => [c]
  | d :: rest =>
    if lexLe c.Name d.Name then c :: d :: rest else d :: insertByName c rest

/-- Arrange a column list in the store's Name order (insertion sort by
the lexicographic byte order on names). -/
def sortByName : List Column → List Column
  | [] => []
  | c :: rest => insertByName c (sortByName rest)

theorem insertByName_perm (c : Column) (cs : List Column) :
    (insertByName c cs).Perm (c :: cs) := by
  induction cs with
  | nil => exact List.Perm.refl _
  | cons d rest ih =>
    rw [insertByName]
    by_cases h : lexLe c.Name d.Name = true
    · rw [if_pos h]
    · rw [if_neg h]
      exact (ih.cons d).trans (List.Perm.swap c d rest)

theorem sortByName_perm (cs : List Column) : (sortByName cs).Perm cs := by
  induction cs with
  | nil => exact List.Perm.refl _
  | cons c rest ih =>
    rw [sortByName]
    exact (insertByName_perm c (sortByName rest)).trans (ih.cons c)

theorem insertByName_sorted (c : Column) (cs : List Column)
    (h : cs.Pairwise (fun a b => lexLe a.Name b.Name = true)) :
    (insertByName c cs).Pairwise (fun a b => lexLe a.Name b.Name = true) := by
  induction cs with
  | nil => simp [insertByName]
  | cons d rest ih =>
    rw [insertByName]
    rw [List.pairwise_cons] at h
    obtain ⟨hd, hrest⟩ := h
    by_cases hcd : lexLe c.Name d.Name = true
    · rw [if_pos hcd]
      rw [List.pairwise_cons]
      constructor
      · intro x hx
        rcases List.mem_cons.mp hx with hx | hx
        · rw [hx]
          exact hcd
        · exact lexLe_trans _ _ _ hcd (hd x hx)
      · rw [List.pairwise_cons]
        exact ⟨hd, hrest⟩
    · rw [if_neg hcd]
      rw [List.pairwise_cons]
      constructor
      · intro x hx
        have hx2 : x ∈ c :: rest :=
          (insertByName_perm c rest).mem_iff.mp hx
        rcases List.mem_cons.mp hx2 with hx2 | hx2
        · rw [hx2]
          rcases lexLe_total c.Name d.Name with h' | h'
          · exact absurd h' hcd
          · exact h'
        · exact hd x hx2
      · exact ih hrest

/-- `sortByName` really is the store's Name order: its output is
pairwise ordered by the lexicographic byte order on column names. -/
theorem sortByName_sorted (cs : List Column) :
    (sortByName cs).Pairwise (fun a b => lexLe a.Name b.Name = true) := by
  induction cs with
  | nil => simp [sortByName]
  | cons c rest ih =>
    rw [sortByName]
    exact insertByName_sorted c (sortByName rest) ih

/-- C1 (amended): for a record of a sparse-mapped type with at least
one free (non-key, non-component) field, whose marshalled field names
and values are each shorter than 65536 bytes, feeding the Row `Map`
produces through a provider holding exactly those columns — in any
arrangement of them, hence in particular in Name order (the store's
lexicographic byte order on column names, `sortByName`) — with the row
ending in `EndBeforeLimit` makes `Unmap` rebuild the record exactly on
a fresh destination of the same type, consuming all columns. -/
theorem c1_sparse_round_trip (m : sparseMapping) (r dest : Rec) (kb : Bytes)
    (hk : lookupField r m.key = some kb)
    (hcomp : ∀ c ∈ m.components, (lookupField r c).isSome = true)
    (hkeys : keysOf dest = keysOf r)
    (hnd : (keysOf r).Nodup)
    (hbound : ∀ f ∈ r, f.1.length < 65536 ∧ f.2.length < 65536)
    (hfree : freeFields m r ≠ []) :
    ∃ row, m.Map r = .ok row ∧
      (∀ cols, cols.Perm row.Columns →
        m.Unmap dest ⟨row.Key, cols, .endBeforeLimit, 0⟩ =
          (.ok r, ⟨row.Key, cols, .endBeforeLimit, cols.length⟩)) ∧
      m.Unmap dest ⟨row.Key, sortByName row.Columns, .endBeforeLimit, 0⟩ =
        (.ok r, ⟨row.Key, sortByName row.Columns, .endBeforeLimit,
          (sortByName row.Columns).length⟩) := by
  have hall : ∀ cols : List Column,
      cols.Perm ((freeFields m r).map
        (mkFreeColumn (componentVals r m.components))) →
      m.Unmap dest ⟨kb, cols, .endBeforeLimit, 0⟩ =
        (.ok r, ⟨kb, cols, .endBeforeLimit, cols.length⟩) := by
    intro cols hperm
    obtain ⟨fsP, hfsPperm, rfl⟩ :=
      exists_perm_map (mkFreeColumn (componentVals r m.components)) cols
        (freeFields m r) hperm
    have hne : fsP ≠ [] := by
      intro hnil
      rw [hnil] at hfsPperm
      exact hfree (List.Perm.eq_nil hfsPperm.symm)
    have htail : ∀ (v : Rec) (g : Bytes) (n : Nat),
        m.unmapLoop v [] true (componentVals r m.components ++ [g])
          .endBeforeLimit n = (.ok v, n) := by
      intro v g n
      rfl
    have h := sparse_unmap_group_perm m r dest kb fsP [] .endBeforeLimit
      ⟨kb, fsP.map (mkFreeColumn (componentVals r m.components)),
        .endBeforeLimit, 0⟩
      hk hcomp hkeys hnd hbound
      (fun f hf => List.mem_of_mem_filter (hfsPperm.subset hf))
      (fun f hf => (hfsPperm.map Prod.fst).mem_iff.mpr
        (List.mem_map.mpr ⟨f, hf, rfl⟩))
      hne htail rfl rfl (by simp)
    rw [h]
    simp
  refine ⟨⟨kb, (freeFields m r).map
    (mkFreeColumn (componentVals r m.components))⟩,
    sparseMap_ok m r kb hk hcomp, ?_, ?_⟩
  · intro cols hperm
    exact hall cols hperm
  · exact hall _ (sortByName_perm _)

/-- C1 (counterexample): a sparse-mapped record with no free field
(every field is the key or a component) maps to a row with zero
columns, and `Unmap` on that row ends with `Done` before setting the
component field — the destination is not equal to the source. -/
theorem c1_counterexample :
    sparseMapping.Map ⟨"", [1], [[2]]⟩ [([1], [9]), ([2], [7])] =
      .ok ⟨[9], []⟩ ∧
    (sparseMapping.Unmap ⟨"", [1], [[2]]⟩ [([1], [0]), ([2], [0])]
      ⟨[9], [], .endBeforeLimit, 0⟩).1 ≠
      .ok [([1], [9]), ([2], [7])] := by
  decide

/-- C1 witness: the amended round trip at a concrete record with one
component and two free fields whose Name order is the reverse of the
declared order (packed names beginning 0,1,4 sort before 0,1,5), so the
Name-order stream genuinely differs from the emission order. -/
theorem c1_sparse_round_trip_witness :
    ∃ row, sparseMapping.Map ⟨"u", [1], [[2]]⟩
        [([1], [9]), ([2], [7]), ([5], [13]), ([4], [11])] = .ok row ∧
      (∀ cols, cols.Perm row.Columns →
        sparseMapping.Unmap ⟨"u", [1], [[2]]⟩
          [([1], [0]), ([2], [0]), ([5], [0]), ([4], [0])]
          ⟨row.Key, cols, .endBeforeLimit, 0⟩ =
          (.ok [([1], [9]), ([2], [7]), ([5], [13]), ([4], [11])],
            ⟨row.Key, cols, .endBeforeLimit, cols.length⟩)) ∧
      sparseMapping.Unmap ⟨"u", [1], [[2]]⟩
        [([1], [0]), ([2], [0]), ([5], [0]), ([4], [0])]
        ⟨row.Key, sortByName row.Columns, .endBeforeLimit, 0⟩ =
        (.ok [([1], [9]), ([2], [7]), ([5], [13]), ([4], [11])],
          ⟨row.Key, sortByName row.Columns, .endBeforeLimit,
            (sortByName row.Columns).length⟩) :=
  c1_sparse_round_trip ⟨"u", [1], [[2]]⟩
    [([1], [9]), ([2], [7]), ([5], [13]), ([4], [11])]
    [([1], [0]), ([2], [0]), ([5], [0]), ([4], [0])]
    [9] (by decide) (by decide) (by decide) (by decide) (by decide)
    (by decide)

/-- C4: with two logical records of the same row (same key, differing
component values) mapped and their column lists concatenated into one
provider stream, the first `Unmap` stops at the first column of the
second group — rewinding exactly one step, so the cursor lands on that
column — and returns the first record; the next `Unmap` call on the
same provider decodes the second record from exactly that column. -/
theorem c4_grouping_rewind (m : sparseMapping) (r1 r2 dest1 dest2 : Rec)
    (kb : Bytes) (row1 row2 : Row)
    (hk1 : lookupField r1 m.key = some kb)
    (hk2 : lookupField r2 m.key = some kb)
    (hcomp1 : ∀ c ∈ m.components, (lookupField r1 c).isSome = true)
    (hcomp2 : ∀ c ∈ m.components, (lookupField r2 c).isSome = true)
    (hkeys1 : keysOf dest1 = keysOf r1)
    (hkeys2 : keysOf dest2 = keysOf r2)
    (hnd1 : (keysOf r1).Nodup)
    (hnd2 : (keysOf r2).Nodup)
    (hbound1 : ∀ f ∈ r1, f.1.length < 65536 ∧ f.2.length < 65536)
    (hbound2 : ∀ f ∈ r2, f.1.length < 65536 ∧ f.2.length < 65536)
    (hfree1 : freeFields m r1 ≠ [])
    (hfree2 : freeFields m r2 ≠ [])
    (hdiff : componentVals r1 m.components ≠ componentVals r2 m.components)
    (hrow1 : m.Map r1 = .ok row1)
    (hrow2 : m.Map r2 = .ok row2) :
    m.Unmap dest1 ⟨kb, row1.Columns ++ row2.Columns, .endBeforeLimit, 0⟩ =
      (.ok r1, ⟨kb, row1.Columns ++ row2.Columns, .endBeforeLimit,
        row1.Columns.length⟩) ∧
    m.Unmap dest2 ⟨kb, row1.Columns ++ row2.Columns, .endBeforeLimit,
        row1.Columns.length⟩ =
      (.ok r2, ⟨kb, row1.Columns ++ row2.Columns, .endBeforeLimit,
        row1.Columns.length + row2.Columns.length⟩) := by
  rw [sparseMap_ok m r1 kb hk1 hcomp1] at hrow1
  rw [sparseMap_ok m r2 kb hk2 hcomp2] at hrow2
  obtain rfl : row1 = ⟨kb, (freeFields m r1).map
      (mkFreeColumn (componentVals r1 m.components))⟩ :=
    (Except.ok.inj hrow1).symm
  obtain rfl : row2 = ⟨kb, (freeFields m r2).map
      (mkFreeColumn (componentVals r2 m.components))⟩ :=
    (Except.ok.inj hrow2).symm
  dsimp only
  have hvlen2 : (componentVals r2 m.components).length =
      m.components.length := by
    simp [componentVals]
  have hvb2 := componentVals_bound m r2 hcomp2 hbound2
  obtain ⟨f0, fs, hfr2⟩ : ∃ f0 fs, freeFields m r2 = f0 :: fs := by
    cases hf : freeFields m r2 with
    | nil => exact absurd hf hfree2
    | cons a b => exact ⟨a, b, rfl⟩
  have hf0r2 : f0 ∈ r2 := List.mem_of_mem_filter (hfr2 ▸ List.mem_cons_self f0 fs)
  have htail : ∀ (v : Rec) (g : Bytes) (n : Nat),
      m.unmapLoop v ((freeFields m r2).map
          (mkFreeColumn (componentVals r2 m.components))) true
        (componentVals r1 m.components ++ [g]) .endBeforeLimit n =
        (.ok v, n) := by
    intro v g n
    rw [hfr2]
    simp only [List.map_cons]
    obtain ⟨nm, val⟩ := f0
    have hex : m.extractComponents
        (mkFreeColumn (componentVals r2 m.components) (nm, val)) 1 =
        .ok (componentVals r2 m.components ++ [nm]) :=
      extractComponents_mkCol m (componentVals r2 m.components) nm val hvlen2
        hvb2 (hbound2 (nm, val) hf0r2).1
    have hlen12 : (componentVals r1 m.components).length =
        (componentVals r2 m.components).length := by
      simp [componentVals]
    have hnew : isNewComponents (componentVals r1 m.components ++ [g])
        (componentVals r2 m.components ++ [nm]) 1 = true :=
      isNewComponents_diff _ _ g nm hlen12 hdiff
    exact unmapLoop_stop_new m v _ _ _ _ .endBeforeLimit n hex hnew
  constructor
  · have h1 := sparse_unmap_group m r1 dest1 kb
      ((freeFields m r2).map (mkFreeColumn (componentVals r2 m.components)))
      .endBeforeLimit
      ⟨kb, (freeFields m r1).map (mkFreeColumn (componentVals r1 m.components))
        ++ (freeFields m r2).map (mkFreeColumn (componentVals r2 m.components)),
        .endBeforeLimit, 0⟩
      hk1 hcomp1 hkeys1 hnd1 hbound1 hfree1 htail rfl rfl (by simp)
    rw [h1]
    simp
  · have htail2 : ∀ (v : Rec) (g : Bytes) (n : Nat),
        m.unmapLoop v [] true (componentVals r2 m.components ++ [g])
          .endBeforeLimit n = (.ok v, n) := by
      intro v g n
      rfl
    have h2 := sparse_unmap_group m r2 dest2 kb [] .endBeforeLimit
      ⟨kb, (freeFields m r1).map (mkFreeColumn (componentVals r1 m.components))
        ++ (freeFields m r2).map (mkFreeColumn (componentVals r2 m.components)),
        .endBeforeLimit,
        ((freeFields m r1).map
          (mkFreeColumn (componentVals r1 m.components))).length⟩
      hk2 hcomp2 hkeys2 hnd2 hbound2 hfree2 htail2 rfl rfl
      (by rw [List.drop_left]; simp)
    rw [h2]
    simp

/-- C4 witness: two concrete one-component records with differing
component values, streamed through one provider and recovered by two
sequential `Unmap` calls with the cursor at the group boundary. -/
theorem c4_grouping_rewind_witness :
    sparseMapping.Unmap ⟨"u", [1], [[2]]⟩ [([1], [0]), ([2], [0]), ([3], [0])]
      ⟨[9], [⟨[0, 1, 7, 0, 0, 1, 3, 0], [4]⟩] ++
        [⟨[0, 1, 8, 0, 0, 1, 3, 0], [5]⟩], .endBeforeLimit, 0⟩ =
      (.ok [([1], [9]), ([2], [7]), ([3], [4])],
        ⟨[9], [⟨[0, 1, 7, 0, 0, 1, 3, 0], [4]⟩] ++
          [⟨[0, 1, 8, 0, 0, 1, 3, 0], [5]⟩], .endBeforeLimit, 1⟩) ∧
    sparseMapping.Unmap ⟨"u", [1], [[2]]⟩ [([1], [0]), ([2], [0]), ([3], [0])]
      ⟨[9], [⟨[0, 1, 7, 0, 0, 1, 3, 0], [4]⟩] ++
        [⟨[0, 1, 8, 0, 0, 1, 3, 0], [5]⟩], .endBeforeLimit, 1⟩ =
      (.ok [([1], [9]), ([2], [8]), ([3], [5])],
        ⟨[9], [⟨[0, 1, 7, 0, 0, 1, 3, 0], [4]⟩] ++
          [⟨[0, 1, 8, 0, 0, 1, 3, 0], [5]⟩], .endBeforeLimit, 2⟩) := by
  have h := c4_grouping_rewind ⟨"u", [1], [[2]]⟩
    [([1], [9]), ([2], [7]), ([3], [4])] [([1], [9]), ([2], [8]), ([3], [5])]
    [([1], [0]), ([2], [0]), ([3], [0])] [([1], [0]), ([2], [0]), ([3], [0])]
    [9] ⟨[9], [⟨[0, 1, 7, 0, 0, 1, 3, 0], [4]⟩]⟩
    ⟨[9], [⟨[0, 1, 8, 0, 0, 1, 3, 0], [5]⟩]⟩
    (by decide) (by decide) (by decide) (by decide) (by decide) (by decide)
    (by decide) (by decide) (by decide) (by decide) (by decide) (by decide)
    (by decide) (by decide) (by decide)
  exact h

/-- Characterization of a successful compact `Map`: exactly one column,
named by the bare packed composite, valued by the marshalled value
field (empty when no value field is declared). -/
theorem compactMap_ok (m : compactMapping) (r : Rec) (kb : Bytes)
    (hk : lookupField r m.sm.key = some kb)
    (hcomp : ∀ c ∈ m.sm.components, (lookupField r c).isSome = true) :
    m.Map r = .ok ⟨kb, [⟨packComponents (componentVals r m.sm.components),
      (lookupField r m.value).getD []⟩]⟩ := by
  have h1 := startMap_ok m.sm r kb hk hcomp
  simp only [compactMapping.Map, h1]
  cases hv : lookupField r m.value with
  | none => simp [hv]
  | some b => simp [hv]

/-- C2 (amended): for a record of a compact-mapped type with at least
one declared component field, whose declared fields are only the key,
the components, and (possibly) the value field, and whose marshalled
values are shorter than 65536 bytes, `Map` produces exactly one column
and feeding it back through a provider makes the compact `Unmap`
rebuild the record exactly, whatever the provider's end signal. -/
theorem c2_compact_round_trip (m : compactMapping) (r dest : Rec) (kb : Bytes)
    (hk : lookupField r m.sm.key = some kb)
    (hcomp : ∀ c ∈ m.sm.components, (lookupField r c).isSome = true)
    (hcz : m.sm.components ≠ [])
    (hkeys : keysOf dest = keysOf r)
    (hnd : (keysOf r).Nodup)
    (hbound : ∀ f ∈ r, f.1.length < 65536 ∧ f.2.length < 65536)
    (hcover : ∀ q ∈ keysOf r,
      q = m.sm.key ∨ q ∈ m.sm.components ∨ q = m.value) :
    ∃ row, m.Map r = .ok row ∧ row.Columns.length = 1 ∧
      ∀ sig, m.Unmap dest ⟨row.Key, row.Columns, sig, 0⟩ =
        (.ok r, ⟨row.Key, row.Columns, sig, 1⟩) := by
  have hvlen : (componentVals r m.sm.components).length =
      m.sm.components.length := by
    simp [componentVals]
  have hvb := componentVals_bound m.sm r hcomp hbound
  have hkmem : m.sm.key ∈ keysOf r :=
    (lookupField_isSome_iff r m.sm.key).mp (by simp [hk])
  have hkd : m.sm.key ∈ keysOf dest := by
    rw [hkeys]
    exact hkmem
  obtain ⟨b0, hb0⟩ := Option.isSome_iff_exists.mp
    ((lookupField_isSome_iff dest m.sm.key).mpr hkd)
  refine ⟨⟨kb, [⟨packComponents (componentVals r m.sm.components),
    (lookupField r m.value).getD []⟩]⟩, compactMap_ok m r kb hk hcomp,
    rfl, ?_⟩
  intro sig
  dsimp only
  have hlp : 0 < m.sm.components.length := List.length_pos.mpr hcz
  have hunp : unpackComposite
      (packComponents (componentVals r m.sm.components)) =
      componentVals r m.sm.components :=
    unpackComposite_packComponents _ hvb
  have hext : m.sm.extractComponents
      ⟨packComponents (componentVals r m.sm.components),
        (lookupField r m.value).getD []⟩ 0 =
      .ok (componentVals r m.sm.components) := by
    simp [sparseMapping.extractComponents, sparseMapping.extractedComponents,
      hlp, hunp, hvlen]
  have hcompd : ∀ c ∈ m.sm.components,
      c ∈ keysOf (updateField dest m.sm.key kb) := by
    intro c hc
    rw [keysOf_updateField, hkeys]
    exact (lookupField_isSome_iff r c).mp (hcomp c hc)
  have hunm : m.sm.unmapComponents (updateField dest m.sm.key kb)
      (componentVals r m.sm.components) =
      .ok (applyUpdates (updateField dest m.sm.key kb)
        (m.sm.components.zip (componentVals r m.sm.components))) := by
    have h := unmapComponents_ok m.sm (updateField dest m.sm.key kb)
      (componentVals r m.sm.components) [] hvlen hcompd
    rwa [List.append_nil] at h
  have hps_zip : ∀ p ∈ m.sm.components.zip (componentVals r m.sm.components),
      lookupField r p.1 = some p.2 := by
    intro p hp
    obtain ⟨c, b⟩ := p
    have hcm : c ∈ m.sm.components := (List.of_mem_zip hp).1
    have hbg : b = (lookupField r c).getD [] :=
      mem_zip_map_eq _ m.sm.components (c, b) hp
    obtain ⟨b', hb'⟩ := Option.isSome_iff_exists.mp (hcomp c hcm)
    rw [hb'] at hbg
    simp only [Option.getD_some] at hbg
    rw [hb', hbg]
  have hzip_names :
      (m.sm.components.zip (componentVals r m.sm.components)).map Prod.fst =
        m.sm.components :=
    List.map_fst_zip _ _ (le_of_eq hvlen.symm)
  simp only [compactMapping.Unmap, hb0, List.drop_zero, hext, hunm]
  by_cases hvm : m.value ∈ keysOf r
  · obtain ⟨bv, hbv⟩ := Option.isSome_iff_exists.mp
      ((lookupField_isSome_iff r m.value).mpr hvm)
    have hvsome : (lookupField (applyUpdates (updateField dest m.sm.key kb)
        (m.sm.components.zip (componentVals r m.sm.components)))
        m.value).isSome = true := by
      rw [lookupField_isSome_iff, keysOf_applyUpdates, keysOf_updateField,
        hkeys]
      exact hvm
    simp only [hvsome, if_pos, hbv, Option.getD_some]
    have hrec : updateField (applyUpdates (updateField dest m.sm.key kb)
        (m.sm.components.zip (componentVals r m.sm.components))) m.value bv =
        r := by
      have hform : updateField (applyUpdates (updateField dest m.sm.key kb)
          (m.sm.components.zip (componentVals r m.sm.components))) m.value bv =
          applyUpdates dest ((m.sm.key, kb) ::
            (m.sm.components.zip (componentVals r m.sm.components) ++
              [(m.value, bv)])) := by
        rw [applyUpdates_cons, applyUpdates_append]
        rfl
      rw [hform]
      refine rec_eq_of_lookup_eq _ r ?_ hnd ?_
      · rw [keysOf_applyUpdates, hkeys]
      · intro q hq
        have hps : ∀ p ∈ (m.sm.key, kb) ::
            (m.sm.components.zip (componentVals r m.sm.components) ++
              [(m.value, bv)]),
            lookupField r p.1 = some p.2 := by
          intro p hp
          rcases List.mem_cons.mp hp with hp | hp
          · subst hp
            exact hk
          · rcases List.mem_append.mp hp with hp | hp
            · exact hps_zip p hp
            · simp only [List.mem_singleton] at hp
              subst hp
              exact hbv
        have hkeys2 : ∀ p ∈ (m.sm.key, kb) ::
            (m.sm.components.zip (componentVals r m.sm.components) ++
              [(m.value, bv)]),
            p.1 ∈ keysOf dest := by
          intro p hp
          rw [hkeys]
          rcases List.mem_cons.mp hp with hp | hp
          · subst hp
            exact hkmem
          · rcases List.mem_append.mp hp with hp | hp
            · exact (lookupField_isSome_iff r p.1).mp
                (hcomp p.1 (List.of_mem_zip hp).1)
            · simp only [List.mem_singleton] at hp
              subst hp
              exact hvm
        rw [lookupField_applyUpdates r _ dest q hps hkeys2]
        rw [if_pos]
        simp only [List.map_cons, List.map_append, List.mem_cons,
          List.mem_append, hzip_names]
        rcases hcover q hq with h | h | h
        · exact Or.inl h
        · exact Or.inr (Or.inl h)
        · exact Or.inr (Or.inr (by simp [h]))
    rw [hrec]
  · have hvnone : (lookupField (applyUpdates (updateField dest m.sm.key kb)
        (m.sm.components.zip (componentVals r m.sm.components)))
        m.value).isSome = false := by
      rw [Bool.eq_false_iff]
      intro hs
      rw [lookupField_isSome_iff, keysOf_applyUpdates, keysOf_updateField,
        hkeys] at hs
      exact hvm hs
    simp only [hvnone, Bool.false_eq_true, if_neg, if_false]
    have hrec : applyUpdates (updateField dest m.sm.key kb)
        (m.sm.components.zip (componentVals r m.sm.components)) = r := by
      have hform : applyUpdates (updateField dest m.sm.key kb)
          (m.sm.components.zip (componentVals r m.sm.components)) =
          applyUpdates dest ((m.sm.key, kb) ::
            m.sm.components.zip (componentVals r m.sm.components)) := by
        rw [applyUpdates_cons]
      rw [hform]
      refine rec_eq_of_lookup_eq _ r ?_ hnd ?_
      · rw [keysOf_applyUpdates, hkeys]
      · intro q hq
        have hps : ∀ p ∈ (m.sm.key, kb) ::
            m.sm.components.zip (componentVals r m.sm.components),
            lookupField r p.1 = some p.2 := by
          intro p hp
          rcases List.mem_cons.mp hp with hp | hp
          · subst hp
            exact hk
          · exact hps_zip p hp
        have hkeys2 : ∀ p ∈ (m.sm.key, kb) ::
            m.sm.components.zip (componentVals r m.sm.components),
            p.1 ∈ keysOf dest := by
          intro p hp
          rw [hkeys]
          rcases List.mem_cons.mp hp with hp | hp
          · subst hp
            exact hkmem
          · exact (lookupField_isSome_iff r p.1).mp
              (hcomp p.1 (List.of_mem_zip hp).1)
        rw [lookupField_applyUpdates r _ dest q hps hkeys2]
        rw [if_pos]
        simp only [List.map_cons, List.mem_cons, hzip_names]
        rcases hcover q hq with h | h | h
        · exact Or.inl h
        · exact Or.inr h
        · exfalso
          rw [h] at hq
          exact hvm hq
    rw [hrec]

/-- C2 (counterexample): a compact mapping with zero component fields
maps to one column as promised, but the same mapping's `Unmap` rejects
that very column with a shape mismatch (1 component found, 0 expected),
so the round trip fails. -/
theorem c2_counterexample :
    compactMapping.Map ⟨⟨"", [1], []⟩, [3]⟩ [([1], [9]), ([3], [5])] =
      .ok ⟨[9], [⟨[], [5]⟩]⟩ ∧
    (compactMapping.Unmap ⟨⟨"", [1], []⟩, [3]⟩ [([1], [0]), ([3], [0])]
      ⟨[9], [⟨[], [5]⟩], .done, 0⟩).1 ≠
      .ok [([1], [9]), ([3], [5])] := by
  decide

/-- C2 witness: the amended compact round trip at a concrete
one-component record with a value field. -/
theorem c2_compact_round_trip_witness :
    ∃ row, compactMapping.Map ⟨⟨"c", [1], [[2]]⟩, [3]⟩
        [([1], [9]), ([2], [7]), ([3], [5])] = .ok row ∧
      row.Columns.length = 1 ∧
      ∀ sig, compactMapping.Unmap ⟨⟨"c", [1], [[2]]⟩, [3]⟩
          [([1], [0]), ([2], [0]), ([3], [0])]
          ⟨row.Key, row.Columns, sig, 0⟩ =
        (.ok [([1], [9]), ([2], [7]), ([3], [5])],
          ⟨row.Key, row.Columns, sig, 1⟩) :=
  c2_compact_round_trip ⟨⟨"c", [1], [[2]]⟩, [3]⟩
    [([1], [9]), ([2], [7]), ([3], [5])] [([1], [0]), ([2], [0]), ([3], [0])]
    [9] (by decide) (by decide) (by decide) (by decide) (by decide)
    (by decide) (by decide)
